import Mathlib

/-!
Verification of the GridWorldMDP repository (src/mdp.py).

States are pairs of Python integers, modelled as `ℤ × ℤ`.  Numeric values
(rewards, probabilities, utilities) are modelled as `ℚ`; Python dictionaries
are modelled as insertion-ordered association lists, and a failed dictionary
lookup (Python `KeyError`) is modelled by `Option`.  The unbounded `while`
loop of `value_iteration` is modelled with explicit fuel: `none` means the
loop did not converge within the given number of sweeps.
-/

namespace GridWorldMDP

/-- A grid state `(x, y)` as in the source: an (x, y) tuple of integers. -/
abbrev Cell : Type := ℤ × ℤ

/-- A Python dictionary with `Cell` keys, as an insertion-ordered association
list (first occurrence of a key is its binding; keys are kept unique by the
update operations below). -/
abbrev Dict (α : Type) : Type := List (Cell × α)

/-- Dictionary lookup: `d[k]` returning `none` on a missing key
(Python raises `KeyError`). -/
def dget {α : Type} : Dict α → Cell → Option α
  | [], _ => none
  | (k, v) :: t, k' => if k' = k then some v else dget t k'

/-- Dictionary assignment `d[k] = v`: replaces the binding in place if the key
is present (Python dicts keep the original insertion position), else appends. -/
def dset {α : Type} : Dict α → Cell → α → Dict α
  | [], k, v => [(k, v)]
  | (k', v') :: t, k, v => if k = k' then (k', v) :: t else (k', v') :: dset t k v

/-- `defaultdict(float)` accumulation `d[k] += v` (missing keys default to 0). -/
def dadd (d : Dict ℚ) (k : Cell) (v : ℚ) : Dict ℚ :=
  dset d k ((dget d k).getD 0 + v)

/-- Value of a probability dictionary at a key, with the `defaultdict` default 0. -/
def dval (d : Dict ℚ) (k : Cell) : ℚ :=
  (dget d k).getD 0

/-- Sum of all values stored in a dictionary. -/
def dsum (d : Dict ℚ) : ℚ :=
  (d.map Prod.snd).sum

/-- Keys of a dictionary, in insertion order. -/
def dkeys {α : Type} (d : Dict α) : List Cell :=
  d.map Prod.fst

/-- Python `range(n)` as a list of integers (empty for `n ≤ 0`). -/
def intRange (n : ℤ) : List ℤ :=
  (List.range n.toNat).map (fun i : ℕ => (i : ℤ))

/-- The `MDP` class: the attributes stored by `MDP.__init__`. -/
structure MDP where
  nrows : ℤ
  ncols : ℤ
  states : List Cell
  rewards : Dict ℚ
  terminals : List Cell
  prob_forw : ℚ
  prob_side : ℚ
  reward_def : ℚ
  actions : List String

/-- `MDP.__init__(num_rows, num_cols, rewards, terminals, prob_forw,
reward_default)`: builds the state list `(i+1, j+1)` for `i in range(num_cols)`,
`j in range(num_rows)`, and stores `prob_side = (1 - prob_forw)/2` and the
fixed action list. -/
def mkMDP (num_rows num_cols : ℤ) (rewards : Dict ℚ) (terminals : List Cell)
    (prob_forw : ℚ) (reward_default : ℚ) : MDP :=
  { nrows := num_rows
    ncols := num_cols
    states := (intRange num_cols).flatMap
      (fun i => (intRange num_rows).map (fun j => (i + 1, j + 1)))
    rewards := rewards
    terminals := terminals
    prob_forw := prob_forw
    prob_side := (1 - prob_forw) / 2
    reward_def := reward_default
    actions := ["up", "right", "down", "left"] }

/-- `MDP.get_states`. -/
def get_states (m : MDP) : List Cell :=
  m.states

/-- `MDP.get_actions` (same list for every state). -/
def get_actions (m : MDP) (_state : Cell) : List String :=
  m.actions

/-- `MDP.is_terminal`. -/
def is_terminal (m : MDP) (state : Cell) : Bool :=
  decide (state ∈ m.terminals)

/-- `MDP.get_reward`: `self.rewards.get(state, self.reward_def)`. -/
def get_reward (m : MDP) (state : Cell) : ℚ :=
  (dget m.rewards state).getD m.reward_def

/-- `MDP.get_successor_probs`: empty for terminal states; otherwise builds the
`defaultdict` of the clamped forward move (plain assignment) and the two
orthogonal moves (`+=` accumulation), per the if/elif chain on the action
string.  An unrecognised action string falls through every branch and the
empty `defaultdict` is returned. -/
def get_successor_probs (m : MDP) (state : Cell) (action : String) : Dict ℚ :=
  if is_terminal m state then []
  else
    let x := state.1
    let y := state.2
    let succ_up : Cell := (x, min m.nrows (y + 1))
    let succ_right : Cell := (min m.ncols (x + 1), y)
    let succ_down : Cell := (x, max 1 (y - 1))
    let succ_left : Cell := (max 1 (x - 1), y)
    if action = "up" then
      dadd (dadd (dset [] succ_up m.prob_forw) succ_right m.prob_side) succ_left m.prob_side
    else if action = "right" then
      dadd (dadd (dset [] succ_right m.prob_forw) succ_up m.prob_side) succ_down m.prob_side
    else if action = "down" then
      dadd (dadd (dset [] succ_down m.prob_forw) succ_right m.prob_side) succ_left m.prob_side
    else if action = "left" then
      dadd (dadd (dset [] succ_left m.prob_forw) succ_up m.prob_side) succ_down m.prob_side
    else []

/-- `utility_prob_sum(prob_state_dict, utility_dict)`: the probability-weighted
sum of utilities, `none` when a successor key is missing from the utility
dictionary (Python `KeyError`).  `derive_policy` inlines this same sum as a
list comprehension. -/
def utility_prob_sum (prob_state_dict : Dict ℚ) (utility_dict : Dict ℚ) : Option ℚ :=
  prob_state_dict.foldlM
    (fun sum_val sp => (dget utility_dict sp.1).map (fun u => sum_val + sp.2 * u)) 0

/-- The initial utility dictionary of `value_iteration`:
`utilities[s] = mdp.get_reward(s)` for each state, in state order. -/
def viInit (m : MDP) : Dict ℚ :=
  m.states.foldl (fun d s => dset d s (get_reward m s)) []

/-- `min_reward` as computed by `value_iteration`: starts at `float("inf")`
(modelled by `none`) and is lowered by strict comparison over the states in
order. -/
def viMinReward (m : MDP) : Option ℚ :=
  m.states.foldl
    (fun acc s =>
      match acc with
      | none => some (get_reward m s)
      | some mr => if get_reward m s < mr then some (get_reward m s) else some mr)
    none

/-- One sweep of `value_iteration`'s `while` loop: for each state, read
`temp = utilities[s]` from the previous snapshot, fold the four actions'
`utility_prob_sum` values through `max` starting from `min_reward`, write
`updated_utilities[s] = reward + gamma * max_val`, and track the largest
absolute change.  Returns the updated dictionary and `convergence_val`;
`none` models a `KeyError` during the sweep. -/
def viSweepStep (m : MDP) (gamma mr : ℚ) (utilities : Dict ℚ)
    (acc : Dict ℚ × ℚ) (s : Cell) : Option (Dict ℚ × ℚ) :=
  (dget utilities s).bind (fun temp =>
    (m.actions.foldlM
        (fun max_val action =>
          (utility_prob_sum (get_successor_probs m s action) utilities).map
            (fun v => max max_val v))
        mr).map
      (fun maxVal =>
        let newU := get_reward m s + gamma * maxVal
        (dset acc.1 s newU, max acc.2 |temp - newU|)))

def viSweep (m : MDP) (gamma mr : ℚ) (utilities : Dict ℚ) : Option (Dict ℚ × ℚ) :=
  m.states.foldlM (viSweepStep m gamma mr utilities) ([], 0)

/-- The `while not convergence` loop, with fuel: run a sweep, replace the whole
snapshot with `updated_utilities`, stop as soon as `convergence_val <= epsilon`
and return the updated dictionary.  `none` means the loop has not converged
within `fuel` sweeps (or a sweep raised a `KeyError`). -/
def viLoop (m : MDP) (gamma eps mr : ℚ) (utilities : Dict ℚ) : ℕ → Option (Dict ℚ)
  | 0 => none
  | fuel + 1 =>
    match viSweep m gamma mr utilities with
    | none => none
    | some (updated, conv) =>
      if conv ≤ eps then some updated else viLoop m gamma eps mr updated fuel

/-- `value_iteration(mdp, gamma, epsilon)` with explicit fuel.  When the state
list is empty, `min_reward` stays `float("inf")` but is never read by the
sweep, so the `getD 0` default is immaterial. -/
def value_iteration (m : MDP) (gamma eps : ℚ) (fuel : ℕ) : Option (Dict ℚ) :=
  viLoop m gamma eps ((viMinReward m).getD 0) (viInit m) fuel

/-- A policy dictionary: values are an action string or the `None` sentinel. -/
abbrev Policy : Type := Dict (Option String)

/-- `derive_policy(mdp, utility)`: terminal states map to `None`; otherwise the
action fold starts from `best_utility = float('-inf')` (modelled by `none`) and
takes an action only on strict `>` improvement.  A missing successor key in
`utility` makes the whole call fail (`none`, modelling the `KeyError`). -/
def bestActionFold (m : MDP) (utility : Dict ℚ) (s : Cell) :
    Option (Option String × Option ℚ) :=
  m.actions.foldlM
    (fun best a =>
      (utility_prob_sum (get_successor_probs m s a) utility).map
        (fun exp_util =>
          match best.2 with
          | none => (some a, some exp_util)
          | some best_utility =>
            if exp_util > best_utility then (some a, some exp_util) else best))
    ((none : Option String), (none : Option ℚ))

def derive_policy (m : MDP) (utility : Dict ℚ) : Option Policy :=
  m.states.foldlM
    (fun policy s =>
      if is_terminal m s then some (dset policy s none)
      else (bestActionFold m utility s).map (fun best => dset policy s best.1))
    []

/-! ### Dictionary lemmas -/

theorem dget_dset {α : Type} (d : Dict α) (k : Cell) (v : α) (t : Cell) :
    dget (dset d k v) t = if t = k then some v else dget d t := by
  induction d with
  | nil => simp [dget, dset]
  | cons e rest ih =>
    obtain ⟨k', v'⟩ := e
    by_cases hk : k = k'
    · subst hk
      by_cases ht : t = k <;> simp [dget, dset, ht]
    · by_cases ht : t = k'
      · subst ht
        simp [dget, dset, hk, Ne.symm hk]
      · simp [dget, dset, hk, ht, ih]

theorem dget_dadd (d : Dict ℚ) (k : Cell) (v : ℚ) (t : Cell) :
    dget (dadd d k v) t = if t = k then some ((dget d k).getD 0 + v) else dget d t := by
  simp [dadd, dget_dset]

theorem dval_dadd (d : Dict ℚ) (k : Cell) (v : ℚ) (t : Cell) :
    dval (dadd d k v) t = dval d t + (if t = k then v else 0) := by
  by_cases ht : t = k
  · subst ht
    simp [dval, dget_dadd]
  · simp [dval, dget_dadd, ht]

theorem dval_dset_nil (k : Cell) (v : ℚ) (t : Cell) :
    dval (dset [] k v) t = if t = k then v else 0 := by
  by_cases ht : t = k <;> simp [dval, dget_dset, dget, ht]

theorem dsum_dadd (d : Dict ℚ) (k : Cell) (v : ℚ) :
    dsum (dadd d k v) = dsum d + v := by
  induction d with
  | nil => simp [dadd, dsum, dset, dget]
  | cons e rest ih =>
    obtain ⟨k', v'⟩ := e
    by_cases hk : k = k'
    · subst hk
      simp [dadd, dsum, dset, dget]
      ring
    · have hrec : dadd ((k', v') :: rest) k v = (k', v') :: dadd rest k v := by
        simp [dadd, dset, dget, hk, Ne.symm hk]
      rw [hrec]
      simp [dsum] at ih ⊢
      rw [ih]
      ring

theorem mem_dset {α : Type} (d : Dict α) (k : Cell) (v : α) (e : Cell × α)
    (he : e ∈ dset d k v) : e ∈ d ∨ e = (k, v) := by
  induction d with
  | nil => simp [dset] at he; simp [he]
  | cons e' rest ih =>
    obtain ⟨k', v'⟩ := e'
    by_cases hk : k = k'
    · subst hk
      simp [dset] at he
      rcases he with h | h
      · right; simp [h]
      · left; simp [h]
    · simp [dset, hk] at he
      rcases he with h | h
      · left; simp [h]
      · rcases ih h with h' | h'
        · left; simp [h']
        · right; exact h'

theorem mem_dkeys_dset {α : Type} (d : Dict α) (k : Cell) (v : α) (t : Cell)
    (ht : t ∈ dkeys (dset d k v)) : t ∈ dkeys d ∨ t = k := by
  simp only [dkeys, List.mem_map] at ht
  obtain ⟨e, he, hfst⟩ := ht
  rcases mem_dset d k v e he with h | h
  · left
    simp only [dkeys, List.mem_map]
    exact ⟨e, h, hfst⟩
  · right
    rw [h] at hfst
    exact hfst.symm

theorem dget_mem {α : Type} (d : Dict α) (k : Cell) (v : α) (h : dget d k = some v) :
    (k, v) ∈ d := by
  induction d with
  | nil => simp [dget] at h
  | cons e rest ih =>
    obtain ⟨k', v'⟩ := e
    by_cases hk : k = k'
    · subst hk
      simp [dget] at h
      simp [h]
    · simp [dget, hk] at h
      simp [ih h]

theorem dval_nonneg_of_entries (d : Dict ℚ) (h : ∀ e ∈ d, 0 ≤ e.2) (t : Cell) :
    0 ≤ dval d t := by
  rcases hget : dget d t with _ | v
  · simp [dval, hget]
  · have := h (t, v) (dget_mem d t v hget)
    simpa [dval, hget] using this

theorem entries_nonneg_dadd (d : Dict ℚ) (k : Cell) (v : ℚ)
    (hd : ∀ e ∈ d, 0 ≤ e.2) (hv : 0 ≤ v) : ∀ e ∈ dadd d k v, 0 ≤ e.2 := by
  intro e he
  rcases mem_dset d k _ e he with h | h
  · exact hd e h
  · have h0 : 0 ≤ (dget d k).getD 0 := dval_nonneg_of_entries d hd k
    rw [h]
    exact add_nonneg h0 hv

theorem dget_isSome_of_mem_dkeys {α : Type} (d : Dict α) (t : Cell)
    (ht : t ∈ dkeys d) : (dget d t).isSome := by
  induction d with
  | nil => simp [dkeys] at ht
  | cons e rest ih =>
    obtain ⟨k', v'⟩ := e
    by_cases h : t = k'
    · simp [dget, h]
    · simp [dkeys, h] at ht
      simpa [dget, h] using ih (by simpa [dkeys] using ht)

theorem mem_dkeys_of_dget_isSome {α : Type} (d : Dict α) (t : Cell)
    (ht : (dget d t).isSome) : t ∈ dkeys d := by
  induction d with
  | nil => simp [dget] at ht
  | cons e rest ih =>
    obtain ⟨k', v'⟩ := e
    by_cases h : t = k'
    · simp [dkeys, h]
    · simp only [dget, if_neg h] at ht
      simp only [dkeys, List.map_cons, List.mem_cons]
      right
      simpa [dkeys] using ih ht

/-- Folding `dset` with a value computed from the key alone: the resulting
dictionary maps every key of the list to its computed value. -/
theorem dget_foldl_dset (f : Cell → ℚ) (l : List Cell) (d0 : Dict ℚ) (t : Cell) :
    dget (l.foldl (fun d s => dset d s (f s)) d0) t
      = if t ∈ l then some (f t) else dget d0 t := by
  induction l generalizing d0 with
  | nil => simp
  | cons s rest ih =>
    simp only [List.foldl_cons, ih, dget_dset]
    by_cases hr : t ∈ rest
    · simp [hr, List.mem_cons]
    · by_cases hs : t = s
      · simp [hr, hs]
      · simp [hr, hs]

/-! ### Spec-side description of the transition law -/

/-- One attempted move in a direction, clamped to the grid boundary
(a blocked coordinate stays unchanged). -/
def moveClamped (m : MDP) (action : String) (s : Cell) : Cell :=
  if action = "up" then (s.1, min m.nrows (s.2 + 1))
  else if action = "right" then (min m.ncols (s.1 + 1), s.2)
  else if action = "down" then (s.1, max 1 (s.2 - 1))
  else if action = "left" then (max 1 (s.1 - 1), s.2)
  else s

/-- The two directions orthogonal to a given direction (never the reverse),
in the order the source accumulates them. -/
def orthDirs (action : String) : String × String :=
  if action = "up" then ("right", "left")
  else if action = "right" then ("up", "down")
  else if action = "down" then ("right", "left")
  else if action = "left" then ("up", "down")
  else (action, action)

/-- For a non-terminal state and a recognised action, the successor dictionary
is exactly: `prob_forw` on the clamped forward cell, `prob_side` on each
clamped orthogonal cell, merged additively when cells coincide; and its values
sum to `prob_forw + 2 * prob_side`. -/
theorem gsp_characterization (m : MDP) (s : Cell) (a : String)
    (hterm : is_terminal m s = false)
    (ha : a = "up" ∨ a = "right" ∨ a = "down" ∨ a = "left") :
    (∀ t : Cell, dval (get_successor_probs m s a) t
        = (if t = moveClamped m a s then m.prob_forw else 0)
          + (if t = moveClamped m (orthDirs a).1 s then m.prob_side else 0)
          + (if t = moveClamped m (orthDirs a).2 s then m.prob_side else 0))
      ∧ dsum (get_successor_probs m s a) = m.prob_forw + 2 * m.prob_side := by
  have hsum1 : ∀ k : Cell, ∀ v : ℚ, dsum (dset [] k v) = v := by
    intro k v; simp [dsum, dset]
  rcases ha with ha | ha | ha | ha <;> subst ha <;>
    constructor <;>
      simp only [get_successor_probs, hterm, Bool.false_eq_true, if_false, reduceIte,
        String.reduceEq, moveClamped, orthDirs, dval_dadd, dval_dset_nil,
        dsum_dadd, hsum1] <;>
    first
      | (intro t; ring_nf)
      | ring_nf

/-! ### Grid bounds -/

theorem mem_intRange (n i : ℤ) : i ∈ intRange n ↔ 0 ≤ i ∧ i < n := by
  simp only [intRange, List.mem_map, List.mem_range]
  constructor
  · rintro ⟨k, hk, rfl⟩
    omega
  · rintro ⟨h0, hn⟩
    exact ⟨i.toNat, by omega, by omega⟩

theorem mem_states_mkMDP (num_rows num_cols : ℤ) (rewards : Dict ℚ)
    (terminals : List Cell) (prob_forw reward_default : ℚ) (s : Cell) :
    s ∈ (mkMDP num_rows num_cols rewards terminals prob_forw reward_default).states
      ↔ 1 ≤ s.1 ∧ s.1 ≤ num_cols ∧ 1 ≤ s.2 ∧ s.2 ≤ num_rows := by
  obtain ⟨x, y⟩ := s
  simp only [mkMDP, List.mem_flatMap, List.mem_map, mem_intRange]
  constructor
  · rintro ⟨i, ⟨hi0, hic⟩, j, ⟨hj0, hjr⟩, heq⟩
    obtain ⟨h1, h2⟩ := Prod.mk.injEq .. ▸ heq
    constructor
    · omega
    · refine ⟨by omega, by omega, by omega⟩
  · rintro ⟨h1, h2, h3, h4⟩
    exact ⟨x - 1, ⟨by omega, by omega⟩, y - 1, ⟨by omega, by omega⟩, by simp⟩

/-- Every key of a successor dictionary of an in-bounds state is itself
in-bounds, hence a member of the state list. -/
theorem gsp_keys_mem_states (num_rows num_cols : ℤ) (rewards : Dict ℚ)
    (terminals : List Cell) (prob_forw reward_default : ℚ) (s : Cell)
    (hs : s ∈ (mkMDP num_rows num_cols rewards terminals prob_forw reward_default).states)
    (a : String) (t : Cell)
    (ht : t ∈ dkeys (get_successor_probs
      (mkMDP num_rows num_cols rewards terminals prob_forw reward_default) s a)) :
    t ∈ (mkMDP num_rows num_cols rewards terminals prob_forw reward_default).states := by
  set m := mkMDP num_rows num_cols rewards terminals prob_forw reward_default with hm
  obtain ⟨x, y⟩ := s
  rw [mem_states_mkMDP] at hs
  obtain ⟨hx1, hx2, hy1, hy2⟩ := hs
  have hnr : m.nrows = num_rows := rfl
  have hnc : m.ncols = num_cols := rfl
  by_cases hterm : is_terminal m (x, y)
  · simp [get_successor_probs, hterm, dkeys] at ht
  · have h3 : ∀ c1 c2 c3 : Cell, ∀ v1 v2 v3 : ℚ,
        t ∈ dkeys (dadd (dadd (dset [] c1 v1) c2 v2) c3 v3) →
        t = c1 ∨ t = c2 ∨ t = c3 := by
      intro c1 c2 c3 v1 v2 v3 h
      rcases mem_dkeys_dset _ _ _ _ h with h | h
      · rcases mem_dkeys_dset _ _ _ _ h with h | h
        · simp [dset, dkeys] at h
          exact Or.inl h
        · exact Or.inr (Or.inl h)
      · exact Or.inr (Or.inr h)
    have hb : ∀ u v : ℤ, 1 ≤ u → u ≤ num_cols → 1 ≤ v → v ≤ num_rows →
        (u, v) ∈ m.states := by
      intro u v h1 h2 h3 h4
      rw [hm, mem_states_mkMDP]
      exact ⟨h1, h2, h3, h4⟩
    rw [Bool.not_eq_true] at hterm
    by_cases ha1 : a = "up"
    · simp only [get_successor_probs, hterm, Bool.false_eq_true, if_false, ha1,
        reduceIte] at ht
      rcases h3 _ _ _ _ _ _ ht with rfl | rfl | rfl <;>
        exact hb _ _ (by omega) (by omega) (by omega) (by omega)
    · by_cases ha2 : a = "right"
      · simp only [get_successor_probs, hterm, Bool.false_eq_true, if_false, ha1, ha2,
          reduceIte] at ht
        rcases h3 _ _ _ _ _ _ ht with rfl | rfl | rfl <;>
          exact hb _ _ (by omega) (by omega) (by omega) (by omega)
      · by_cases ha3 : a = "down"
        · simp only [get_successor_probs, hterm, Bool.false_eq_true, if_false, ha1, ha2,
            ha3, reduceIte] at ht
          rcases h3 _ _ _ _ _ _ ht with rfl | rfl | rfl <;>
            exact hb _ _ (by omega) (by omega) (by omega) (by omega)
        · by_cases ha4 : a = "left"
          · simp only [get_successor_probs, hterm, Bool.false_eq_true, if_false, ha1,
              ha2, ha3, ha4, reduceIte] at ht
            rcases h3 _ _ _ _ _ _ ht with rfl | rfl | rfl <;>
              exact hb _ _ (by omega) (by omega) (by omega) (by omega)
          · simp [get_successor_probs, hterm, ha1, ha2, ha3, ha4, dkeys] at ht

/-! ### Shape of successor dictionaries -/

theorem gsp_shape (m : MDP) (s : Cell) (a : String) :
    get_successor_probs m s a = [] ∨
    ∃ c1 c2 c3 : Cell, get_successor_probs m s a
      = dadd (dadd (dset [] c1 m.prob_forw) c2 m.prob_side) c3 m.prob_side := by
  unfold get_successor_probs
  by_cases hterm : is_terminal m s
  · simp [hterm]
  · rw [Bool.not_eq_true] at hterm
    simp only [hterm, Bool.false_eq_true, if_false]
    by_cases h1 : a = "up"
    · right
      exact ⟨(s.1, min m.nrows (s.2 + 1)), (min m.ncols (s.1 + 1), s.2),
        (max 1 (s.1 - 1), s.2), by simp [h1]⟩
    · by_cases h2 : a = "right"
      · right
        exact ⟨(min m.ncols (s.1 + 1), s.2), (s.1, min m.nrows (s.2 + 1)),
          (s.1, max 1 (s.2 - 1)), by simp [h1, h2]⟩
      · by_cases h3 : a = "down"
        · right
          exact ⟨(s.1, max 1 (s.2 - 1)), (min m.ncols (s.1 + 1), s.2),
            (max 1 (s.1 - 1), s.2), by simp [h1, h2, h3]⟩
        · by_cases h4 : a = "left"
          · right
            exact ⟨(max 1 (s.1 - 1), s.2), (s.1, min m.nrows (s.2 + 1)),
              (s.1, max 1 (s.2 - 1)), by simp [h1, h2, h3, h4]⟩
          · left; simp [h1, h2, h3, h4]

theorem gsp_entries_nonneg (m : MDP) (hpf : 0 ≤ m.prob_forw) (hps : 0 ≤ m.prob_side)
    (s : Cell) (a : String) : ∀ e ∈ get_successor_probs m s a, 0 ≤ e.2 := by
  have hbase : ∀ c : Cell, ∀ e ∈ dset ([] : Dict ℚ) c m.prob_forw, 0 ≤ e.2 := by
    intro c e he
    simp [dset] at he
    simp [he, hpf]
  rcases gsp_shape m s a with h | ⟨c1, c2, c3, h⟩
  · simp [h]
  · rw [h]
    exact entries_nonneg_dadd _ _ _ (entries_nonneg_dadd _ _ _ (hbase c1) hps) hps

theorem gsp_dsum_le_one (m : MDP) (hps : m.prob_side = (1 - m.prob_forw) / 2)
    (s : Cell) (a : String) : dsum (get_successor_probs m s a) ≤ 1 := by
  rcases gsp_shape m s a with h | ⟨c1, c2, c3, h⟩
  · simp [h, dsum]
  · rw [h, dsum_dadd, dsum_dadd]
    have : dsum (dset [] c1 m.prob_forw) = m.prob_forw := by simp [dsum, dset]
    rw [this, hps]
    ring_nf
    linarith [le_refl (1 : ℚ)]

/-! ### Pure functional layer -/

/-- The probability-weighted sum evaluated through a total utility function. -/
def pureSum (d : Dict ℚ) (u : Cell → ℚ) : ℚ :=
  d.foldl (fun acc sp => acc + sp.2 * u sp.1) 0

/-- `max_val`: fold of the four expected values through `max`, floored at
`min_reward`. -/
def bellmanMax (m : MDP) (mr : ℚ) (u : Cell → ℚ) (s : Cell) : ℚ :=
  m.actions.foldl (fun max_val a => max max_val (pureSum (get_successor_probs m s a) u)) mr

/-- The synchronous per-state update: `reward(s) + gamma * max_val`, computed
entirely from the previous sweep's utility function `u`. -/
def sweepVal (m : MDP) (gamma mr : ℚ) (u : Cell → ℚ) (s : Cell) : ℚ :=
  get_reward m s + gamma * bellmanMax m mr u s

/-- Largest absolute difference of two utility functions over a state list. -/
def maxAbsDiff (l : List Cell) (u v : Cell → ℚ) : ℚ :=
  l.foldl (fun acc s => max acc |u s - v s|) 0

/-- The synchronous value-iteration sequence: start from the immediate rewards
(the initial dictionary), apply the sweep update to the whole previous
snapshot. -/
def Fiter (m : MDP) (gamma mr : ℚ) : ℕ → Cell → ℚ
  | 0 => dval (viInit m)
  | k + 1 => sweepVal m gamma mr (Fiter m gamma mr k)

/-! ### `utility_prob_sum` and `Option` folds -/

theorem ups_foldlM_eq (U : Dict ℚ) (p : Dict ℚ)
    (h : ∀ t ∈ dkeys p, (dget U t).isSome) (acc : ℚ) :
    p.foldlM (fun sum_val sp => (dget U sp.1).map (fun u => sum_val + sp.2 * u)) acc
      = some (p.foldl (fun a sp => a + sp.2 * dval U sp.1) acc) := by
  induction p generalizing acc with
  | nil => rfl
  | cons sp rest ih =>
    have hk : (dget U sp.1).isSome := h sp.1 (by simp [dkeys])
    rcases hu : dget U sp.1 with _ | u
    · rw [hu] at hk; simp at hk
    · have hrest : ∀ t ∈ dkeys rest, (dget U t).isSome := by
        intro t htt
        exact h t (by simp [dkeys] at htt ⊢; right; exact htt)
      rw [List.foldlM_cons, hu]
      simp only [Option.map_some', Option.some_bind, List.foldl_cons, ih hrest]
      have hdv : dval U sp.1 = u := by simp [dval, hu]
      rw [hdv]
      rfl

theorem utility_prob_sum_eq (p U : Dict ℚ)
    (h : ∀ t ∈ dkeys p, (dget U t).isSome) :
    utility_prob_sum p U = some (pureSum p (dval U)) := by
  exact ups_foldlM_eq U p h 0

theorem ups_foldlM_some (U : Dict ℚ) (p : Dict ℚ) (acc q : ℚ)
    (h : p.foldlM (fun sum_val sp => (dget U sp.1).map (fun u => sum_val + sp.2 * u)) acc
      = some q) :
    ∀ t ∈ dkeys p, (dget U t).isSome := by
  induction p generalizing acc with
  | nil => intro t htt; simp [dkeys] at htt
  | cons sp rest ih =>
    simp only [List.foldlM_cons] at h
    rcases hu : dget U sp.1 with _ | u
    · rw [hu] at h; simp at h
    · rw [hu] at h
      simp only [Option.map_some', Option.some_bind] at h
      intro t htt
      simp only [dkeys, List.map_cons, List.mem_cons] at htt
      rcases htt with rfl | htt
      · simp [hu]
      · exact ih _ h t (by simpa [dkeys] using htt)

theorem utility_prob_sum_some (p U : Dict ℚ) (q : ℚ)
    (h : utility_prob_sum p U = some q) :
    q = pureSum p (dval U) ∧ ∀ t ∈ dkeys p, (dget U t).isSome := by
  have hkeys := ups_foldlM_some U p 0 q h
  have := utility_prob_sum_eq p U hkeys
  rw [this] at h
  exact ⟨(Option.some.injEq .. ▸ h).symm, hkeys⟩

theorem utility_prob_sum_none (p U : Dict ℚ) (t : Cell)
    (ht : t ∈ dkeys p) (h : dget U t = none) : utility_prob_sum p U = none := by
  rcases hq : utility_prob_sum p U with _ | q
  · rfl
  · have := (utility_prob_sum_some p U q hq).2 t ht
    rw [h] at this
    simp at this

/-! ### `maxAbsDiff` lemmas -/

theorem foldl_max_init_le {α : Type} (l : List α) (f : α → ℚ) (acc : ℚ) :
    acc ≤ l.foldl (fun a s => max a (f s)) acc := by
  induction l generalizing acc with
  | nil => simp
  | cons s rest ih => exact le_trans (le_max_left acc (f s)) (ih _)

theorem foldl_max_mem_le {α : Type} (l : List α) (f : α → ℚ) (s : α)
    (hs : s ∈ l) : ∀ acc : ℚ, f s ≤ l.foldl (fun a t => max a (f t)) acc := by
  induction l with
  | nil => simp at hs
  | cons t rest ih =>
    intro acc
    rcases List.mem_cons.1 hs with rfl | hs2
    · exact le_trans (le_max_right acc (f s)) (foldl_max_init_le rest f _)
    · exact ih hs2 _

theorem foldl_max_le {α : Type} (l : List α) (f : α → ℚ) (c : ℚ)
    (h : ∀ s ∈ l, f s ≤ c) :
    ∀ acc : ℚ, acc ≤ c → l.foldl (fun a s => max a (f s)) acc ≤ c := by
  induction l with
  | nil => intro acc hacc; simpa using hacc
  | cons s rest ih =>
    intro acc hacc
    simp only [List.foldl_cons]
    exact ih (fun t htt => h t (List.mem_cons_of_mem s htt)) _
      (max_le hacc (h s (List.mem_cons_self s rest)))

theorem maxAbsDiff_nonneg (l : List Cell) (u v : Cell → ℚ) : 0 ≤ maxAbsDiff l u v :=
  foldl_max_init_le l (fun s => |u s - v s|) 0

theorem abs_le_maxAbsDiff (l : List Cell) (u v : Cell → ℚ) (s : Cell) (hs : s ∈ l) :
    |u s - v s| ≤ maxAbsDiff l u v :=
  foldl_max_mem_le l (fun t => |u t - v t|) s hs 0

theorem maxAbsDiff_le (l : List Cell) (u v : Cell → ℚ) (c : ℚ) (hc : 0 ≤ c)
    (h : ∀ s ∈ l, |u s - v s| ≤ c) : maxAbsDiff l u v ≤ c :=
  foldl_max_le l (fun t => |u t - v t|) c h 0 hc

theorem foldl_max_congr {α : Type} (l : List α) (f g : α → ℚ)
    (h : ∀ s ∈ l, f s = g s) :
    ∀ acc : ℚ, l.foldl (fun a s => max a (f s)) acc = l.foldl (fun a s => max a (g s)) acc := by
  induction l with
  | nil => intro acc; rfl
  | cons s rest ih =>
    intro acc
    simp only [List.foldl_cons, h s (List.mem_cons_self s rest)]
    exact ih (fun t htt => h t (List.mem_cons_of_mem s htt)) _

theorem maxAbsDiff_congr (l : List Cell) (u v u' v' : Cell → ℚ)
    (hu : ∀ s ∈ l, u s = u' s) (hv : ∀ s ∈ l, v s = v' s) :
    maxAbsDiff l u v = maxAbsDiff l u' v' :=
  foldl_max_congr l _ _ (fun s hs => by rw [hu s hs, hv s hs]) 0

/-! ### Correspondence between the dictionary sweep and the pure sweep -/

theorem actions_foldlM_eq (m : MDP) (U : Dict ℚ) (s : Cell) (l : List String)
    (h : ∀ a ∈ l, ∀ t ∈ dkeys (get_successor_probs m s a), (dget U t).isSome) :
    ∀ mr : ℚ,
      l.foldlM
          (fun max_val action =>
            (utility_prob_sum (get_successor_probs m s action) U).map
              (fun v => max max_val v))
          mr
        = some (l.foldl
            (fun max_val a => max max_val (pureSum (get_successor_probs m s a) (dval U)))
            mr) := by
  induction l with
  | nil => intro mr; rfl
  | cons a rest ih =>
    intro mr
    have ha := utility_prob_sum_eq (get_successor_probs m s a) U
      (h a (List.mem_cons_self a rest))
    rw [List.foldlM_cons, ha]
    simp only [Option.map_some', Option.some_bind, List.foldl_cons]
    exact ih (fun b hb => h b (List.mem_cons_of_mem a hb)) _

theorem viSweep_fold (m : MDP) (gamma mr : ℚ) (U : Dict ℚ) (l : List Cell)
    (hU : ∀ s ∈ l, (dget U s).isSome)
    (hkeys : ∀ s ∈ l, ∀ a ∈ m.actions,
      ∀ t ∈ dkeys (get_successor_probs m s a), (dget U t).isSome) :
    ∀ d0 : Dict ℚ, ∀ c0 : ℚ, ∃ d : Dict ℚ,
      l.foldlM (viSweepStep m gamma mr U) (d0, c0)
        = some (d, l.foldl
            (fun acc s => max acc |dval U s - sweepVal m gamma mr (dval U) s|) c0)
      ∧ ∀ t : Cell, dget d t
          = if t ∈ l then some (sweepVal m gamma mr (dval U) t) else dget d0 t := by
  induction l with
  | nil =>
    intro d0 c0
    exact ⟨d0, rfl, fun t => by simp⟩
  | cons s rest ih =>
    intro d0 c0
    have hs : (dget U s).isSome := hU s (List.mem_cons_self s rest)
    rcases hu : dget U s with _ | u
    · rw [hu] at hs; simp at hs
    have hdvu : dval U s = u := by simp [dval, hu]
    have hact := actions_foldlM_eq m U s m.actions
      (hkeys s (List.mem_cons_self s rest)) mr
    have hstep : viSweepStep m gamma mr U (d0, c0) s
        = some (dset d0 s (sweepVal m gamma mr (dval U) s),
            max c0 |dval U s - sweepVal m gamma mr (dval U) s|) := by
      rw [viSweepStep, hu, Option.some_bind, hact]
      simp only [Option.map_some']
      rw [hdvu]
      rfl
    obtain ⟨d, hfold, hd⟩ := ih (fun t htt => hU t (List.mem_cons_of_mem s htt))
      (fun t htt => hkeys t (List.mem_cons_of_mem s htt))
      (dset d0 s (sweepVal m gamma mr (dval U) s))
      (max c0 |dval U s - sweepVal m gamma mr (dval U) s|)
    refine ⟨d, ?_, ?_⟩
    · simp only [List.foldlM_cons, hstep, Option.some_bind, List.foldl_cons]
      exact hfold
    · intro t
      rw [hd t]
      by_cases htr : t ∈ rest
      · simp [htr]
      · rw [dget_dset]
        by_cases hts : t = s
        · simp [htr, hts]
        · simp [htr, hts]

theorem viSweep_eq (m : MDP) (gamma mr : ℚ) (U : Dict ℚ)
    (hU : ∀ s ∈ m.states, (dget U s).isSome)
    (hkeys : ∀ s ∈ m.states, ∀ a ∈ m.actions,
      ∀ t ∈ dkeys (get_successor_probs m s a), (dget U t).isSome) :
    ∃ d : Dict ℚ,
      viSweep m gamma mr U
        = some (d, maxAbsDiff m.states (dval U) (sweepVal m gamma mr (dval U)))
      ∧ ∀ t : Cell, dget d t
          = if t ∈ m.states then some (sweepVal m gamma mr (dval U) t) else none := by
  obtain ⟨d, hfold, hd⟩ := viSweep_fold m gamma mr U m.states hU hkeys [] 0
  refine ⟨d, hfold, fun t => ?_⟩
  rw [hd t]
  by_cases ht : t ∈ m.states <;> simp [ht, dget]

/-! ### The initial dictionary and congruence of the pure sweep -/

theorem dget_viInit (m : MDP) (t : Cell) :
    dget (viInit m) t = if t ∈ m.states then some (get_reward m t) else none := by
  rw [viInit, dget_foldl_dset]
  by_cases ht : t ∈ m.states <;> simp [ht, dget]

theorem pureSum_congr (p : Dict ℚ) (u v : Cell → ℚ)
    (h : ∀ t ∈ dkeys p, u t = v t) : pureSum p u = pureSum p v := by
  unfold pureSum
  have haux : ∀ q : Dict ℚ, (∀ t ∈ dkeys q, u t = v t) → ∀ acc : ℚ,
      q.foldl (fun a sp => a + sp.2 * u sp.1) acc
        = q.foldl (fun a sp => a + sp.2 * v sp.1) acc := by
    intro q hq
    induction q with
    | nil => intro acc; rfl
    | cons sp rest ih =>
      intro acc
      simp only [List.foldl_cons]
      rw [hq sp.1 (by simp [dkeys])]
      exact ih (fun t htt => hq t (by simp [dkeys] at htt ⊢; right; exact htt)) _
  exact haux p h 0

/-- A model whose successor dictionaries only mention listed states
(established for every constructor-built model by `gsp_keys_mem_states`). -/
def KeysClosed (m : MDP) : Prop :=
  ∀ s ∈ m.states, ∀ a : String,
    ∀ t ∈ dkeys (get_successor_probs m s a), t ∈ m.states

theorem sweepVal_congr (m : MDP) (hK : KeysClosed m) (gamma mr : ℚ)
    (u v : Cell → ℚ) (huv : ∀ t ∈ m.states, u t = v t) (s : Cell)
    (hs : s ∈ m.states) :
    sweepVal m gamma mr u s = sweepVal m gamma mr v s := by
  unfold sweepVal bellmanMax
  rw [foldl_max_congr m.actions _ _
    (fun a _ => pureSum_congr (get_successor_probs m s a) u v
      (fun t htt => huv t (hK s hs a t htt))) mr]

/-! ### The loop as iteration of the pure synchronous sweep -/

/-- The largest per-state change of the `k`-th synchronous sweep. -/
def sweepGap (m : MDP) (gamma mr : ℚ) (k : ℕ) : ℚ :=
  maxAbsDiff m.states (Fiter m gamma mr k) (Fiter m gamma mr (k + 1))

/-- The utility dictionary holds snapshot `k` of the pure iteration. -/
def Snapshot (m : MDP) (gamma mr : ℚ) (k : ℕ) (U : Dict ℚ) : Prop :=
  ∀ t : Cell, dget U t = if t ∈ m.states then some (Fiter m gamma mr k t) else none

theorem snapshot_viInit (m : MDP) (gamma mr : ℚ) : Snapshot m gamma mr 0 (viInit m) := by
  intro t
  rw [dget_viInit]
  by_cases ht : t ∈ m.states <;> simp [ht, Fiter, dval, dget_viInit]

theorem snapshot_viSweep (m : MDP) (hK : KeysClosed m) (gamma mr : ℚ) (k : ℕ)
    (U : Dict ℚ) (hU : Snapshot m gamma mr k U) :
    ∃ d : Dict ℚ, viSweep m gamma mr U = some (d, sweepGap m gamma mr k)
      ∧ Snapshot m gamma mr (k + 1) d := by
  have hUsome : ∀ s ∈ m.states, (dget U s).isSome := by
    intro s hs
    rw [hU s, if_pos hs]
    rfl
  have hdvalU : ∀ s ∈ m.states, dval U s = Fiter m gamma mr k s := by
    intro s hs
    rw [dval, hU s, if_pos hs]
    rfl
  obtain ⟨d, hsweep, hd⟩ := viSweep_eq m gamma mr U hUsome
    (fun s hs a _ t ht => hUsome t (hK s hs a t ht))
  have hsv : ∀ s ∈ m.states,
      sweepVal m gamma mr (dval U) s = Fiter m gamma mr (k + 1) s := by
    intro s hs
    exact sweepVal_congr m hK gamma mr (dval U) (Fiter m gamma mr k) hdvalU s hs
  refine ⟨d, ?_, ?_⟩
  · rw [hsweep, sweepGap]
    rw [maxAbsDiff_congr m.states (dval U) (sweepVal m gamma mr (dval U))
      (Fiter m gamma mr k) (Fiter m gamma mr (k + 1)) hdvalU hsv]
  · intro t
    rw [hd t]
    by_cases ht : t ∈ m.states
    · rw [if_pos ht, if_pos ht, hsv t ht]
    · rw [if_neg ht, if_neg ht]

theorem viLoop_some_spec (m : MDP) (hK : KeysClosed m) (gamma eps mr : ℚ) :
    ∀ fuel : ℕ, ∀ U R : Dict ℚ, ∀ k : ℕ, Snapshot m gamma mr k U →
      viLoop m gamma eps mr U fuel = some R →
      ∃ n : ℕ, n < fuel
        ∧ (∀ j < n, eps < sweepGap m gamma mr (k + j))
        ∧ sweepGap m gamma mr (k + n) ≤ eps
        ∧ Snapshot m gamma mr (k + n + 1) R := by
  intro fuel
  induction fuel with
  | zero => intro U R k _ h; simp [viLoop] at h
  | succ fuel ih =>
    intro U R k hU h
    obtain ⟨d, hsweep, hd⟩ := snapshot_viSweep m hK gamma mr k U hU
    simp only [viLoop, hsweep] at h
    by_cases hconv : sweepGap m gamma mr k ≤ eps
    · rw [if_pos hconv] at h
      refine ⟨0, Nat.succ_pos fuel, by omega, ?_, ?_⟩
      · simpa using hconv
      · have hR : R = d := by
          injection h with h1
          exact h1.symm
        rw [hR]
        simpa using hd
    · rw [if_neg hconv] at h
      obtain ⟨n, hn, hlt, hle, hsnap⟩ := ih d R (k + 1) hd h
      refine ⟨n + 1, by omega, ?_, ?_, ?_⟩
      · intro j hj
        rcases Nat.eq_zero_or_pos j with rfl | hj0
        · simpa using lt_of_not_le hconv
        · obtain ⟨j', rfl⟩ : ∃ j', j = j' + 1 := ⟨j - 1, by omega⟩
          have hja : k + (j' + 1) = (k + 1) + j' := by omega
          rw [hja]
          exact hlt j' (by omega)
      · have hna : k + (n + 1) = (k + 1) + n := by omega
        rw [hna]
        exact hle
      · have hna : k + (n + 1) + 1 = (k + 1) + n + 1 := by omega
        rw [hna]
        exact hsnap

theorem viLoop_none_spec (m : MDP) (hK : KeysClosed m) (gamma eps mr : ℚ) :
    ∀ fuel : ℕ, ∀ U : Dict ℚ, ∀ k : ℕ, Snapshot m gamma mr k U →
      viLoop m gamma eps mr U fuel = none →
      ∀ j < fuel, eps < sweepGap m gamma mr (k + j) := by
  intro fuel
  induction fuel with
  | zero => intro U k _ _ j hj; omega
  | succ fuel ih =>
    intro U k hU h j hj
    obtain ⟨d, hsweep, hd⟩ := snapshot_viSweep m hK gamma mr k U hU
    simp only [viLoop, hsweep] at h
    by_cases hconv : sweepGap m gamma mr k ≤ eps
    · rw [if_pos hconv] at h
      simp at h
    · rw [if_neg hconv] at h
      rcases Nat.eq_zero_or_pos j with rfl | hj0
      · simpa using lt_of_not_le hconv
      · obtain ⟨j', rfl⟩ : ∃ j', j = j' + 1 := ⟨j - 1, by omega⟩
        have hja : k + (j' + 1) = (k + 1) + j' := by omega
        rw [hja]
        exact ih d (k + 1) hd h j' (by omega)

/-! ### Contraction of the synchronous sweep -/

theorem pureSum_eq_sum (p : Dict ℚ) (u : Cell → ℚ) :
    pureSum p u = (p.map (fun sp => sp.2 * u sp.1)).sum := by
  unfold pureSum
  have haux : ∀ q : Dict ℚ, ∀ acc : ℚ,
      q.foldl (fun a sp => a + sp.2 * u sp.1) acc
        = acc + (q.map (fun sp => sp.2 * u sp.1)).sum := by
    intro q
    induction q with
    | nil => intro acc; simp
    | cons sp rest ih =>
      intro acc
      simp only [List.foldl_cons, List.map_cons, List.sum_cons, ih]
      ring
  rw [haux p 0, zero_add]

theorem pureSum_cons (sp : Cell × ℚ) (rest : Dict ℚ) (u : Cell → ℚ) :
    pureSum (sp :: rest) u = sp.2 * u sp.1 + pureSum rest u := by
  rw [pureSum_eq_sum, pureSum_eq_sum, List.map_cons, List.sum_cons]

theorem pureSum_sub_abs_le (p : Dict ℚ) (u v : Cell → ℚ) (D : ℚ)
    (hvals : ∀ e ∈ p, 0 ≤ e.2)
    (hdiff : ∀ t ∈ dkeys p, |u t - v t| ≤ D) :
    |pureSum p u - pureSum p v| ≤ dsum p * D := by
  induction p with
  | nil => simp [pureSum, dsum]
  | cons sp rest ih =>
    have hsp : 0 ≤ sp.2 := hvals sp (List.mem_cons_self sp rest)
    have hd1 : |u sp.1 - v sp.1| ≤ D := hdiff sp.1 (by simp [dkeys])
    have hih : |pureSum rest u - pureSum rest v| ≤ dsum rest * D :=
      ih (fun e he => hvals e (List.mem_cons_of_mem sp he))
        (fun t htt => hdiff t (by simp [dkeys] at htt ⊢; right; exact htt))
    rw [pureSum_cons, pureSum_cons]
    have heq : sp.2 * u sp.1 + pureSum rest u - (sp.2 * v sp.1 + pureSum rest v)
        = sp.2 * (u sp.1 - v sp.1) + (pureSum rest u - pureSum rest v) := by ring
    rw [heq]
    calc |sp.2 * (u sp.1 - v sp.1) + (pureSum rest u - pureSum rest v)|
        ≤ |sp.2 * (u sp.1 - v sp.1)| + |pureSum rest u - pureSum rest v| := abs_add _ _
      _ ≤ sp.2 * D + dsum rest * D := by
          refine add_le_add ?_ hih
          rw [abs_mul, abs_of_nonneg hsp]
          exact mul_le_mul_of_nonneg_left hd1 hsp
      _ = dsum (sp :: rest) * D := by simp [dsum]; ring

theorem foldl_max_lipschitz {α : Type} (l : List α) (f g : α → ℚ) (D : ℚ)
    (h : ∀ a ∈ l, |f a - g a| ≤ D) :
    ∀ acc1 acc2 : ℚ, |acc1 - acc2| ≤ D →
      |l.foldl (fun mv a => max mv (f a)) acc1
        - l.foldl (fun mv a => max mv (g a)) acc2| ≤ D := by
  induction l with
  | nil => intro acc1 acc2 hacc; simpa using hacc
  | cons a rest ih =>
    intro acc1 acc2 hacc
    simp only [List.foldl_cons]
    refine ih (fun b hb => h b (List.mem_cons_of_mem a hb)) _ _ ?_
    refine le_trans (abs_max_sub_max_le_max acc1 (f a) acc2 (g a)) ?_
    exact max_le hacc (h a (List.mem_cons_self a rest))

theorem sweepVal_contraction (m : MDP) (hK : KeysClosed m)
    (hpf0 : 0 ≤ m.prob_forw) (hpf1 : m.prob_forw ≤ 1)
    (hside : m.prob_side = (1 - m.prob_forw) / 2)
    (gamma mr : ℚ) (hg0 : 0 ≤ gamma) (u v : Cell → ℚ) (s : Cell)
    (hs : s ∈ m.states) :
    |sweepVal m gamma mr u s - sweepVal m gamma mr v s|
      ≤ gamma * maxAbsDiff m.states u v := by
  have hps0 : 0 ≤ m.prob_side := by rw [hside]; linarith
  set D := maxAbsDiff m.states u v with hD
  have hD0 : 0 ≤ D := maxAbsDiff_nonneg m.states u v
  have hbell : |bellmanMax m mr u s - bellmanMax m mr v s| ≤ D := by
    unfold bellmanMax
    refine foldl_max_lipschitz m.actions _ _ D ?_ mr mr (by simpa using hD0)
    intro a _
    have hent := gsp_entries_nonneg m hpf0 hps0 s a
    have hdiff : ∀ t ∈ dkeys (get_successor_probs m s a), |u t - v t| ≤ D :=
      fun t htt => abs_le_maxAbsDiff m.states u v t (hK s hs a t htt)
    refine le_trans (pureSum_sub_abs_le _ u v D hent hdiff) ?_
    exact mul_le_of_le_one_left hD0 (gsp_dsum_le_one m hside s a)
  have hsw : sweepVal m gamma mr u s - sweepVal m gamma mr v s
      = gamma * (bellmanMax m mr u s - bellmanMax m mr v s) := by
    unfold sweepVal
    ring
  rw [hsw, abs_mul, abs_of_nonneg hg0]
  exact mul_le_mul_of_nonneg_left hbell hg0

theorem maxAbsDiff_comm (l : List Cell) (u v : Cell → ℚ) :
    maxAbsDiff l u v = maxAbsDiff l v u :=
  foldl_max_congr l _ _ (fun s _ => abs_sub_comm (u s) (v s)) 0

theorem sweepGap_decay (m : MDP) (hK : KeysClosed m)
    (hpf0 : 0 ≤ m.prob_forw) (hpf1 : m.prob_forw ≤ 1)
    (hside : m.prob_side = (1 - m.prob_forw) / 2)
    (gamma mr : ℚ) (hg0 : 0 ≤ gamma) (k : ℕ) :
    sweepGap m gamma mr (k + 1) ≤ gamma * sweepGap m gamma mr k := by
  have hgap0 : 0 ≤ sweepGap m gamma mr k := maxAbsDiff_nonneg _ _ _
  refine maxAbsDiff_le m.states _ _ _ (mul_nonneg hg0 hgap0) ?_
  intro s hs
  have hc := sweepVal_contraction m hK hpf0 hpf1 hside gamma mr hg0
    (Fiter m gamma mr (k + 1)) (Fiter m gamma mr k) s hs
  rw [maxAbsDiff_comm] at hc
  rw [abs_sub_comm]
  exact hc

theorem sweepGap_geometric (m : MDP) (hK : KeysClosed m)
    (hpf0 : 0 ≤ m.prob_forw) (hpf1 : m.prob_forw ≤ 1)
    (hside : m.prob_side = (1 - m.prob_forw) / 2)
    (gamma mr : ℚ) (hg0 : 0 ≤ gamma) (n : ℕ) :
    sweepGap m gamma mr n ≤ gamma ^ n * sweepGap m gamma mr 0 := by
  induction n with
  | zero => simp
  | succ n ih =>
    calc sweepGap m gamma mr (n + 1)
        ≤ gamma * sweepGap m gamma mr n :=
          sweepGap_decay m hK hpf0 hpf1 hside gamma mr hg0 n
      _ ≤ gamma * (gamma ^ n * sweepGap m gamma mr 0) :=
          mul_le_mul_of_nonneg_left ih hg0
      _ = gamma ^ (n + 1) * sweepGap m gamma mr 0 := by ring

theorem vi_terminates_general (m : MDP) (hK : KeysClosed m)
    (hpf0 : 0 ≤ m.prob_forw) (hpf1 : m.prob_forw ≤ 1)
    (hside : m.prob_side = (1 - m.prob_forw) / 2)
    (gamma eps mr : ℚ) (hg0 : 0 ≤ gamma) (hg1 : gamma < 1) (heps : 0 < eps) :
    ∃ fuel : ℕ, ∃ R : Dict ℚ, viLoop m gamma eps mr (viInit m) fuel = some R
      ∧ ∀ s ∈ m.states, (dget R s).isSome := by
  have hsnap0 := snapshot_viInit m gamma mr
  obtain ⟨n, hn⟩ : ∃ n : ℕ, sweepGap m gamma mr n ≤ eps := by
    by_cases hgap : sweepGap m gamma mr 0 ≤ eps
    · exact ⟨0, hgap⟩
    · have hgap0 : 0 < sweepGap m gamma mr 0 := lt_trans heps (lt_of_not_le hgap)
      obtain ⟨n, hpow⟩ := exists_pow_lt_of_lt_one
        (div_pos heps hgap0) hg1
      refine ⟨n, ?_⟩
      have h1 : gamma ^ n * sweepGap m gamma mr 0 < eps :=
        (lt_div_iff₀ hgap0).1 hpow
      exact le_of_lt (lt_of_le_of_lt
        (sweepGap_geometric m hK hpf0 hpf1 hside gamma mr hg0 n) h1)
  rcases hloop : viLoop m gamma eps mr (viInit m) (n + 1) with _ | R
  · exfalso
    have := viLoop_none_spec m hK gamma eps mr (n + 1) (viInit m) 0 hsnap0 hloop
      n (by omega)
    simp only [Nat.zero_add] at this
    exact absurd hn (not_le_of_lt this)
  · obtain ⟨k, _, _, _, hsnap⟩ :=
      viLoop_some_spec m hK gamma eps mr (n + 1) (viInit m) R 0 hsnap0 hloop
    refine ⟨n + 1, R, hloop, ?_⟩
    intro s hs
    rw [hsnap s, if_pos hs]
    rfl

/-! ### Analysis of `derive_policy` -/

/-- The expected successor utility of an action, through total lookups. -/
def expUtil (m : MDP) (U : Dict ℚ) (s : Cell) (a : String) : ℚ :=
  pureSum (get_successor_probs m s a) (dval U)

/-- The pure argmax fold underlying `bestActionFold` once every
`utility_prob_sum` lookup is known to succeed. -/
def bestPure (l : List String) (e : String → ℚ) : Option String × Option ℚ :=
  l.foldl
    (fun best a =>
      match best.2 with
      | none => (some a, some (e a))
      | some best_utility => if e a > best_utility then (some a, some (e a)) else best)
    ((none : Option String), (none : Option ℚ))

theorem bestActionFold_isSome_ups (m : MDP) (U : Dict ℚ) (s : Cell) :
    ∀ l : List String, ∀ acc : Option String × Option ℚ, ∀ r,
      (l.foldlM
          (fun best a =>
            (utility_prob_sum (get_successor_probs m s a) U).map
              (fun exp_util =>
                match best.2 with
                | none => (some a, some exp_util)
                | some best_utility =>
                  if exp_util > best_utility then (some a, some exp_util) else best))
          acc) = some r →
      ∀ a ∈ l, (utility_prob_sum (get_successor_probs m s a) U).isSome := by
  intro l
  induction l with
  | nil => intro acc r _ a ha; simp at ha
  | cons c rest ih =>
    intro acc r h a ha
    rw [List.foldlM_cons] at h
    rcases hq : utility_prob_sum (get_successor_probs m s c) U with _ | q
    · rw [hq] at h; simp at h
    · rw [hq] at h
      simp only [Option.map_some', Option.some_bind] at h
      rcases List.mem_cons.1 ha with rfl | ha2
      · simp [hq]
      · exact ih _ r h a ha2

theorem bestActionFold_eq_pure_gen (m : MDP) (U : Dict ℚ) (s : Cell) :
    ∀ l : List String, ∀ acc : Option String × Option ℚ,
      (∀ a ∈ l, (utility_prob_sum (get_successor_probs m s a) U).isSome) →
      (l.foldlM
          (fun best a =>
            (utility_prob_sum (get_successor_probs m s a) U).map
              (fun exp_util =>
                match best.2 with
                | none => (some a, some exp_util)
                | some best_utility =>
                  if exp_util > best_utility then (some a, some exp_util) else best))
          acc)
        = some (l.foldl
            (fun best a =>
              match best.2 with
              | none => (some a, some (expUtil m U s a))
              | some best_utility =>
                if expUtil m U s a > best_utility then (some a, some (expUtil m U s a))
                else best)
            acc) := by
  intro l
  induction l with
  | nil => intro acc _; rfl
  | cons c rest ih =>
    intro acc hl
    have hc := hl c (List.mem_cons_self c rest)
    rcases hq : utility_prob_sum (get_successor_probs m s c) U with _ | q
    · rw [hq] at hc; simp at hc
    · have hqe : q = expUtil m U s c :=
        (utility_prob_sum_some _ _ _ hq).1
      rw [List.foldlM_cons, hq]
      simp only [Option.map_some', Option.some_bind, List.foldl_cons]
      rw [hqe]
      exact ih _ (fun a ha => hl a (List.mem_cons_of_mem c ha))

theorem bestActionFold_some_eq (m : MDP) (U : Dict ℚ) (s : Cell)
    (r : Option String × Option ℚ) (h : bestActionFold m U s = some r) :
    r = bestPure m.actions (expUtil m U s) := by
  have hups := bestActionFold_isSome_ups m U s m.actions _ r h
  have := bestActionFold_eq_pure_gen m U s m.actions
    ((none : Option String), (none : Option ℚ)) hups
  rw [bestActionFold] at h
  rw [this] at h
  injection h with h1
  rw [← h1]
  rfl

/-- The fold keeps the first action attaining the running maximum: starting
from an already-chosen action `a0` with value `u0 = e a0`, the result either
keeps `(a0, u0)` (everything later is `≤ u0`) or picks the first later action
strictly above everything before it and at least everything after it. -/
theorem bestPure_go (e : String → ℚ) :
    ∀ l : List String, ∀ a0 : String, ∀ u0 : ℚ,
      (l.foldl
          (fun best a =>
            match best.2 with
            | none => (some a, some (e a))
            | some best_utility =>
              if e a > best_utility then (some a, some (e a)) else best)
          (some a0, some u0)
        = (some a0, some u0) ∧ ∀ b ∈ l, e b ≤ u0)
      ∨ (∃ a l1 l2, l = l1 ++ a :: l2
          ∧ l.foldl
              (fun best a =>
                match best.2 with
                | none => (some a, some (e a))
                | some best_utility =>
                  if e a > best_utility then (some a, some (e a)) else best)
              (some a0, some u0)
            = (some a, some (e a))
          ∧ u0 < e a ∧ (∀ b ∈ l1, e b < e a) ∧ (∀ b ∈ l2, e b ≤ e a)) := by
  intro l
  induction l with
  | nil => intro a0 u0; left; exact ⟨rfl, by simp⟩
  | cons c rest ih =>
    intro a0 u0
    by_cases hc : e c > u0
    · simp only [List.foldl_cons, hc, if_pos hc]
      rcases ih c (e c) with ⟨hr, hall⟩ | ⟨a, l1, l2, hl, hr, hu0, h1, h2⟩
      · right
        exact ⟨c, [], rest, rfl, hr, hc, by simp, hall⟩
      · right
        refine ⟨a, c :: l1, l2, by rw [hl]; rfl, hr, lt_trans hc hu0, ?_, h2⟩
        intro b hb
        rcases List.mem_cons.1 hb with rfl | hb2
        · exact hu0
        · exact h1 b hb2
    · simp only [List.foldl_cons, if_neg hc]
      rcases ih a0 u0 with ⟨hr, hall⟩ | ⟨a, l1, l2, hl, hr, hu0, h1, h2⟩
      · left
        refine ⟨hr, ?_⟩
        intro b hb
        rcases List.mem_cons.1 hb with rfl | hb2
        · exact le_of_not_lt hc
        · exact hall b hb2
      · right
        refine ⟨a, c :: l1, l2, by rw [hl]; rfl, hr, hu0, ?_, h2⟩
        intro b hb
        rcases List.mem_cons.1 hb with rfl | hb2
        · exact lt_of_le_of_lt (le_of_not_lt hc) hu0
        · exact h1 b hb2

/-- For a non-empty action list, `bestPure` returns the first action whose
expected value is strictly above every earlier action's and at least every
later action's. -/
theorem bestPure_spec (l : List String) (e : String → ℚ) (hl : l ≠ []) :
    ∃ a l1 l2, l = l1 ++ a :: l2 ∧ (bestPure l e).1 = some a
      ∧ (∀ b ∈ l1, e b < e a) ∧ (∀ b ∈ l2, e b ≤ e a) := by
  rcases l with _ | ⟨c, rest⟩
  · exact absurd rfl hl
  · have hstep : bestPure (c :: rest) e
        = rest.foldl
            (fun best a =>
              match best.2 with
              | none => (some a, some (e a))
              | some best_utility =>
                if e a > best_utility then (some a, some (e a)) else best)
            (some c, some (e c)) := rfl
    rcases bestPure_go e rest c (e c) with ⟨hr, hall⟩ | ⟨a, l1, l2, hlr, hr, hu0, h1, h2⟩
    · refine ⟨c, [], rest, rfl, ?_, by simp, hall⟩
      rw [hstep, hr]
    · refine ⟨a, c :: l1, l2, by rw [hlr]; rfl, ?_, ?_, h2⟩
      · rw [hstep, hr]
      · intro b hb
        rcases List.mem_cons.1 hb with rfl | hb2
        · exact hu0
        · exact h1 b hb2

/-- The per-state policy value written by `derive_policy`. -/
def dpVal (m : MDP) (U : Dict ℚ) (t : Cell) : Option String :=
  if is_terminal m t then none
  else
    match bestActionFold m U t with
    | none => none
    | some r => r.1

theorem derive_policy_fold (m : MDP) (U : Dict ℚ) :
    ∀ l : List Cell, ∀ p0 pol : Policy,
      (l.foldlM
          (fun policy s =>
            if is_terminal m s then some (dset policy s none)
            else (bestActionFold m U s).map (fun best => dset policy s best.1))
          p0) = some pol →
      (∀ s ∈ l, is_terminal m s = true ∨ (bestActionFold m U s).isSome)
      ∧ ∀ t : Cell, dget pol t = if t ∈ l then some (dpVal m U t) else dget p0 t := by
  intro l
  induction l with
  | nil =>
    intro p0 pol h
    have hp : pol = p0 := by
      injection h with h1
      exact h1.symm
    exact ⟨by simp, fun t => by simp [hp]⟩
  | cons s rest ih =>
    intro p0 pol h
    rw [List.foldlM_cons] at h
    by_cases hterm : is_terminal m s
    · rw [if_pos hterm] at h
      simp only [Option.bind_eq_bind, Option.some_bind] at h
      obtain ⟨hmem, hval⟩ := ih (dset p0 s none) pol h
      refine ⟨?_, ?_⟩
      · intro t htl
        rcases List.mem_cons.1 htl with rfl | htl2
        · exact Or.inl hterm
        · exact hmem t htl2
      · intro t
        rw [hval t, dget_dset]
        by_cases htr : t ∈ rest
        · simp [htr]
        · by_cases hts : t = s
          · subst hts
            simp [htr, dpVal, hterm]
          · simp [htr, hts]
    · rw [if_neg hterm] at h
      rcases hb : bestActionFold m U s with _ | r
      · rw [hb] at h; simp at h
      · rw [hb] at h
        simp only [Option.map_some', Option.some_bind] at h
        obtain ⟨hmem, hval⟩ := ih (dset p0 s r.1) pol h
        refine ⟨?_, ?_⟩
        · intro t htl
          rcases List.mem_cons.1 htl with rfl | htl2
          · right; simp [hb]
          · exact hmem t htl2
        · intro t
          rw [hval t, dget_dset]
          by_cases htr : t ∈ rest
          · simp [htr]
          · by_cases hts : t = s
            · subst hts
              rw [Bool.not_eq_true] at hterm
              simp [htr, dpVal, hterm, hb]
            · simp [htr, hts]

/-- A step that fails for every accumulator makes the whole `Option` fold
fail. -/
theorem foldlM_none_of_mem {α β : Type} (l : List α) (f : β → α → Option β)
    (x : α) (hx : x ∈ l) (hf : ∀ acc : β, f acc x = none) :
    ∀ acc : β, l.foldlM f acc = none := by
  induction l with
  | nil => simp at hx
  | cons c rest ih =>
    intro acc
    rw [List.foldlM_cons]
    rcases List.mem_cons.1 hx with rfl | hx2
    · rw [hf acc]
      rfl
    · rcases hfc : f acc c with _ | b
      · rfl
      · simp only [Option.bind_eq_bind, Option.some_bind]
        exact ih hx2 b

/-! ### Remaining helper lemmas -/

theorem keysClosed_mkMDP (num_rows num_cols : ℤ) (rewards : Dict ℚ)
    (terminals : List Cell) (prob_forw reward_default : ℚ) :
    KeysClosed (mkMDP num_rows num_cols rewards terminals prob_forw reward_default) :=
  fun s hs a t ht =>
    gsp_keys_mem_states num_rows num_cols rewards terminals prob_forw reward_default
      s hs a t ht

theorem viMinReward_fold (m : MDP) :
    ∀ l : List Cell, ∀ mr0 : ℚ,
      ∃ mr : ℚ,
        (l.foldl
            (fun acc s =>
              match acc with
              | none => some (get_reward m s)
              | some mrr =>
                if get_reward m s < mrr then some (get_reward m s) else some mrr)
            (some mr0)) = some mr
        ∧ mr ≤ mr0 ∧ (∀ s ∈ l, mr ≤ get_reward m s)
        ∧ (mr = mr0 ∨ ∃ s ∈ l, mr = get_reward m s) := by
  intro l
  induction l with
  | nil =>
    intro mr0
    exact ⟨mr0, rfl, le_refl mr0, by simp, Or.inl rfl⟩
  | cons c rest ih =>
    intro mr0
    by_cases hlt : get_reward m c < mr0
    · obtain ⟨mr, hfold, hle, hall, hor⟩ := ih (get_reward m c)
      refine ⟨mr, ?_, le_trans hle (le_of_lt hlt), ?_, ?_⟩
      · rw [List.foldl_cons]
        simpa [hlt] using hfold
      · intro s hsm
        rcases List.mem_cons.1 hsm with rfl | hsm2
        · exact hle
        · exact hall s hsm2
      · rcases hor with rfl | ⟨s, hsm, hmr⟩
        · exact Or.inr ⟨c, List.mem_cons_self c rest, rfl⟩
        · exact Or.inr ⟨s, List.mem_cons_of_mem c hsm, hmr⟩
    · obtain ⟨mr, hfold, hle, hall, hor⟩ := ih mr0
      refine ⟨mr, ?_, hle, ?_, ?_⟩
      · rw [List.foldl_cons]
        simpa [hlt] using hfold
      · intro s hsm
        rcases List.mem_cons.1 hsm with rfl | hsm2
        · exact le_trans hle (le_of_not_lt hlt)
        · exact hall s hsm2
      · rcases hor with rfl | ⟨s, hsm, hmr⟩
        · exact Or.inl rfl
        · exact Or.inr ⟨s, List.mem_cons_of_mem c hsm, hmr⟩

theorem viMinReward_spec (m : MDP) (hne : m.states ≠ []) :
    ∃ mr : ℚ, viMinReward m = some mr
      ∧ (∀ s ∈ m.states, mr ≤ get_reward m s)
      ∧ ∃ s ∈ m.states, mr = get_reward m s := by
  rcases hst : m.states with _ | ⟨c, rest⟩
  · exact absurd hst hne
  · obtain ⟨mr, hfold, hle, hall, hor⟩ := viMinReward_fold m rest (get_reward m c)
    refine ⟨mr, ?_, ?_, ?_⟩
    · rw [viMinReward, hst, List.foldl_cons]
      exact hfold
    · intro s hsm
      rcases List.mem_cons.1 hsm with rfl | hsm2
      · exact hle
      · exact hall s hsm2
    · rcases hor with rfl | ⟨s, hsm, hmr⟩
      · exact ⟨c, List.mem_cons_self c rest, rfl⟩
      · exact ⟨s, List.mem_cons_of_mem c hsm, hmr⟩

/-- `max_val` of a terminal state: the four empty successor sums contribute 0,
so the fold collapses to `max min_reward 0`. -/
theorem bellmanMax_terminal (m : MDP)
    (hact : m.actions = ["up", "right", "down", "left"])
    (s : Cell) (hterm : is_terminal m s = true) (mr : ℚ) (u : Cell → ℚ) :
    bellmanMax m mr u s = max mr 0 := by
  have hgsp : ∀ a : String, get_successor_probs m s a = [] := by
    intro a
    simp [get_successor_probs, hterm]
  have hzero : ∀ a : String, pureSum (get_successor_probs m s a) u = 0 := by
    intro a
    rw [hgsp a]
    rfl
  unfold bellmanMax
  rw [hact]
  simp only [List.foldl_cons, List.foldl_nil, hzero]
  simp [max_assoc]

/-! ### Claim theorems -/

/-- C1, counterexample: on a 1×1 grid whose only state is terminal with reward
1 (so `min_reward = 1 > 0`), `value_iteration` with discount 1/2 and epsilon
1/4 converges to utility 3/2, not the reward 1 — refuting the claim that the
returned utility of a terminal state equals exactly its reward for every
discount factor regardless of the rewards of other states. -/
theorem claim_C1_counterexample :
    value_iteration (mkMDP 1 1 [] [(1, 1)] (1 / 2) 1) (1 / 2) (1 / 4) 3
        = some [((1, 1), 3 / 2)]
      ∧ get_reward (mkMDP 1 1 [] [(1, 1)] (1 / 2) 1) (1, 1) = 1
      ∧ (3 : ℚ) / 2 ≠ 1 := by
  refine ⟨?_, by decide, by norm_num⟩
  norm_num [value_iteration, viLoop, viSweep, viSweepStep, viInit, viMinReward,
      utility_prob_sum, get_successor_probs, get_reward, get_states, is_terminal,
      dget, dset, dadd, dval, mkMDP, intRange, bellmanMax, List.foldlM_cons,
      List.foldlM_nil, List.foldl_cons, List.foldl_nil, List.range_succ]

/-- C1, amended: for a terminal state `s` of a constructor-built model,
`get_successor_probs(s, a)` is empty for every action, and the utility map
returned by `value_iteration` maps `s` to
`reward(s) + discount * max(min_reward, 0)`; this equals exactly `reward(s)`
whenever `min_reward ≤ 0` (in particular whenever some state has a
non-positive reward), but not in general. -/
theorem claim_C1_amended (m : MDP) (num_rows num_cols : ℤ) (rewards : Dict ℚ)
    (terminals : List Cell) (prob_forw reward_default : ℚ)
    (hm : m = mkMDP num_rows num_cols rewards terminals prob_forw reward_default)
    (gamma eps : ℚ) (fuel : ℕ) (U : Dict ℚ)
    (hrun : value_iteration m gamma eps fuel = some U)
    (s : Cell) (hs : s ∈ get_states m) (hterm : is_terminal m s = true) :
    (∀ a : String, get_successor_probs m s a = [])
    ∧ dget U s = some (get_reward m s + gamma * max ((viMinReward m).getD 0) 0)
    ∧ ((viMinReward m).getD 0 ≤ 0 → dget U s = some (get_reward m s)) := by
  have hK : KeysClosed m := by
    rw [hm]
    exact keysClosed_mkMDP num_rows num_cols rewards terminals prob_forw reward_default
  have hact : m.actions = ["up", "right", "down", "left"] := by rw [hm]; rfl
  have hgsp : ∀ a : String, get_successor_probs m s a = [] := by
    intro a
    simp [get_successor_probs, hterm]
  unfold value_iteration at hrun
  obtain ⟨n, _, _, _, hsnap⟩ := viLoop_some_spec m hK gamma eps
    ((viMinReward m).getD 0) fuel (viInit m) U 0
    (snapshot_viInit m gamma ((viMinReward m).getD 0)) hrun
  have hsst : s ∈ m.states := hs
  have hval : dget U s
      = some (Fiter m gamma ((viMinReward m).getD 0) (0 + n + 1) s) := by
    rw [hsnap s, if_pos hsst]
  have hfit : Fiter m gamma ((viMinReward m).getD 0) (0 + n + 1) s
      = get_reward m s + gamma * max ((viMinReward m).getD 0) 0 := by
    have h1 : (0 + n + 1) = n + 1 := by omega
    rw [h1]
    show sweepVal m gamma ((viMinReward m).getD 0)
      (Fiter m gamma ((viMinReward m).getD 0) n) s = _
    rw [sweepVal, bellmanMax_terminal m hact s hterm]
  refine ⟨hgsp, by rw [hval, hfit], ?_⟩
  intro hneg
  rw [hval, hfit, max_eq_right hneg, mul_zero, add_zero]

/-- C1 witness: a 1×1 grid with terminal state of reward 0 (`min_reward = 0`),
where the amended claim's conclusion holds and the returned terminal utility
is exactly the reward. -/
theorem claim_C1_witness :
    ((1, 1) : Cell) ∈ get_states (mkMDP 1 1 [] [(1, 1)] (1 / 2) 0)
    ∧ is_terminal (mkMDP 1 1 [] [(1, 1)] (1 / 2) 0) (1, 1) = true
    ∧ value_iteration (mkMDP 1 1 [] [(1, 1)] (1 / 2) 0) (1 / 2) (1 / 4) 1
        = some [((1, 1), 0)]
    ∧ ((∀ a : String,
          get_successor_probs (mkMDP 1 1 [] [(1, 1)] (1 / 2) 0) (1, 1) a = [])
        ∧ dget [((1, 1), 0)] (1, 1)
            = some (get_reward (mkMDP 1 1 [] [(1, 1)] (1 / 2) 0) (1, 1)
                + (1 / 2) * max ((viMinReward (mkMDP 1 1 [] [(1, 1)] (1 / 2) 0)).getD 0) 0)
        ∧ ((viMinReward (mkMDP 1 1 [] [(1, 1)] (1 / 2) 0)).getD 0 ≤ 0 →
            dget [((1, 1), 0)] (1, 1)
              = some (get_reward (mkMDP 1 1 [] [(1, 1)] (1 / 2) 0) (1, 1)))) :=
  ⟨by decide, by decide,
    by norm_num [value_iteration, viLoop, viSweep, viSweepStep, viInit, viMinReward,
      utility_prob_sum, get_successor_probs, get_reward, get_states, is_terminal,
      dget, dset, dadd, dval, mkMDP, intRange, bellmanMax, List.foldlM_cons,
      List.foldlM_nil, List.foldl_cons, List.foldl_nil, List.range_succ],
    claim_C1_amended (mkMDP 1 1 [] [(1, 1)] (1 / 2) 0) 1 1 [] [(1, 1)] (1 / 2) 0 rfl
      (1 / 2) (1 / 4) 1 [((1, 1), 0)]
      (by norm_num [value_iteration, viLoop, viSweep, viSweepStep, viInit, viMinReward,
      utility_prob_sum, get_successor_probs, get_reward, get_states, is_terminal,
      dget, dset, dadd, dval, mkMDP, intRange, bellmanMax, List.foldlM_cons,
      List.foldlM_nil, List.foldl_cons, List.foldl_nil, List.range_succ])
      (1, 1) (by decide) (by decide)⟩

/-- C2: `value_iteration` initialises every state's utility to its immediate
reward, computes `min_reward` as the minimum reward over all states, and each
sweep writes `reward(s) + discount * max_val` for every state, where
`max_val` folds the four actions' probability-weighted successor sums through
`max` starting from the `min_reward` baseline. -/
theorem claim_C2_update_rule (m : MDP) (num_rows num_cols : ℤ) (rewards : Dict ℚ)
    (terminals : List Cell) (prob_forw reward_default : ℚ)
    (hm : m = mkMDP num_rows num_cols rewards terminals prob_forw reward_default)
    (gamma mr : ℚ) (U : Dict ℚ)
    (hU : ∀ s ∈ get_states m, (dget U s).isSome) :
    (∀ s ∈ get_states m, dget (viInit m) s = some (get_reward m s))
    ∧ (get_states m ≠ [] → ∃ min_reward : ℚ, viMinReward m = some min_reward
        ∧ (∀ s ∈ get_states m, min_reward ≤ get_reward m s)
        ∧ ∃ s ∈ get_states m, min_reward = get_reward m s)
    ∧ ∃ d : Dict ℚ, ∃ conv : ℚ, viSweep m gamma mr U = some (d, conv)
        ∧ ∀ s ∈ get_states m,
            dget d s = some (get_reward m s + gamma *
              max (max (max
                    (max mr (pureSum (get_successor_probs m s "up") (dval U)))
                    (pureSum (get_successor_probs m s "right") (dval U)))
                  (pureSum (get_successor_probs m s "down") (dval U)))
                (pureSum (get_successor_probs m s "left") (dval U))) := by
  have hK : KeysClosed m := by
    rw [hm]
    exact keysClosed_mkMDP num_rows num_cols rewards terminals prob_forw reward_default
  have hact : m.actions = ["up", "right", "down", "left"] := by rw [hm]; rfl
  refine ⟨?_, ?_, ?_⟩
  · intro s hs
    have hs2 : s ∈ m.states := hs
    rw [dget_viInit, if_pos hs2]
  · intro hne
    exact viMinReward_spec m hne
  · obtain ⟨d, hsweep, hd⟩ := viSweep_eq m gamma mr U hU
      (fun s hs a _ t ht => hU t (hK s hs a t ht))
    refine ⟨d, _, hsweep, ?_⟩
    intro s hs
    have hs2 : s ∈ m.states := hs
    rw [hd s, if_pos hs2, sweepVal, bellmanMax, hact]
    simp only [List.foldl_cons, List.foldl_nil]

/-- C2 witness: the update rule evaluated on a concrete 1×1 model with a
complete utility dictionary. -/
theorem claim_C2_witness :
    (∀ s ∈ get_states (mkMDP 1 1 [] [] (1 / 2) 0),
      (dget [((1, 1), (5 : ℚ))] s).isSome)
    ∧ ((∀ s ∈ get_states (mkMDP 1 1 [] [] (1 / 2) 0),
          dget (viInit (mkMDP 1 1 [] [] (1 / 2) 0)) s
            = some (get_reward (mkMDP 1 1 [] [] (1 / 2) 0) s))
      ∧ (get_states (mkMDP 1 1 [] [] (1 / 2) 0) ≠ [] →
          ∃ min_reward : ℚ,
            viMinReward (mkMDP 1 1 [] [] (1 / 2) 0) = some min_reward
            ∧ (∀ s ∈ get_states (mkMDP 1 1 [] [] (1 / 2) 0),
                min_reward ≤ get_reward (mkMDP 1 1 [] [] (1 / 2) 0) s)
            ∧ ∃ s ∈ get_states (mkMDP 1 1 [] [] (1 / 2) 0),
                min_reward = get_reward (mkMDP 1 1 [] [] (1 / 2) 0) s)
      ∧ ∃ d : Dict ℚ, ∃ conv : ℚ,
          viSweep (mkMDP 1 1 [] [] (1 / 2) 0) (1 / 2) 0 [((1, 1), (5 : ℚ))]
              = some (d, conv)
          ∧ ∀ s ∈ get_states (mkMDP 1 1 [] [] (1 / 2) 0),
              dget d s = some (get_reward (mkMDP 1 1 [] [] (1 / 2) 0) s + (1 / 2) *
                max (max (max
                      (max 0 (pureSum
                        (get_successor_probs (mkMDP 1 1 [] [] (1 / 2) 0) s "up")
                        (dval [((1, 1), (5 : ℚ))])))
                      (pureSum
                        (get_successor_probs (mkMDP 1 1 [] [] (1 / 2) 0) s "right")
                        (dval [((1, 1), (5 : ℚ))])))
                    (pureSum
                      (get_successor_probs (mkMDP 1 1 [] [] (1 / 2) 0) s "down")
                      (dval [((1, 1), (5 : ℚ))])))
                  (pureSum
                    (get_successor_probs (mkMDP 1 1 [] [] (1 / 2) 0) s "left")
                    (dval [((1, 1), (5 : ℚ))])))) :=
  ⟨by decide,
    claim_C2_update_rule (mkMDP 1 1 [] [] (1 / 2) 0) 1 1 [] [] (1 / 2) 0 rfl
      (1 / 2) 0 [((1, 1), (5 : ℚ))] (by decide)⟩

/-- C3: for every in-bounds non-terminal state and each of the four actions,
the successor mapping assigns `prob_forw` to the clamped forward cell and
`(1 - prob_forw)/2` to each of the two clamped orthogonal cells (never the
reverse), probabilities of coinciding clamped cells being summed into one
entry, and the mapping's probabilities sum to exactly 1. -/
theorem claim_C3_transition_law (m : MDP) (num_rows num_cols : ℤ)
    (rewards : Dict ℚ) (terminals : List Cell) (prob_forw reward_default : ℚ)
    (hm : m = mkMDP num_rows num_cols rewards terminals prob_forw reward_default)
    (x y : ℤ) (hx1 : 1 ≤ x) (hx2 : x ≤ num_cols) (hy1 : 1 ≤ y) (hy2 : y ≤ num_rows)
    (hterm : is_terminal m (x, y) = false) (a : String)
    (ha : a ∈ get_actions m (x, y)) :
    (∀ t : Cell,
      dval (get_successor_probs m (x, y) a) t
        = (if t = moveClamped m a (x, y) then prob_forw else 0)
          + (if t = moveClamped m (orthDirs a).1 (x, y) then (1 - prob_forw) / 2 else 0)
          + (if t = moveClamped m (orthDirs a).2 (x, y) then (1 - prob_forw) / 2 else 0))
    ∧ dsum (get_successor_probs m (x, y) a) = 1 := by
  have ha4 : a = "up" ∨ a = "right" ∨ a = "down" ∨ a = "left" := by
    have hacts : get_actions m (x, y) = ["up", "right", "down", "left"] := by
      rw [hm]; rfl
    rw [hacts] at ha
    simpa using ha
  obtain ⟨hval, hsum⟩ := gsp_characterization m (x, y) a hterm ha4
  have hpf : m.prob_forw = prob_forw := by rw [hm]; rfl
  have hps : m.prob_side = (1 - prob_forw) / 2 := by rw [hm]; rfl
  constructor
  · intro t
    rw [hval t, hpf, hps]
  · rw [hsum, hpf, hps]
    ring

/-- C3 witness: the transition law at the in-bounds non-terminal corner state
(1, 1) of the 2×3 test grid with forward probability 4/5, action `"up"`. -/
theorem claim_C3_witness :
    is_terminal (mkMDP 2 3 [] [(3, 2)] (4 / 5) 0) (1, 1) = false
    ∧ "up" ∈ get_actions (mkMDP 2 3 [] [(3, 2)] (4 / 5) 0) (1, 1)
    ∧ ((∀ t : Cell,
        dval (get_successor_probs (mkMDP 2 3 [] [(3, 2)] (4 / 5) 0) (1, 1) "up") t
          = (if t = moveClamped (mkMDP 2 3 [] [(3, 2)] (4 / 5) 0) "up" (1, 1)
              then 4 / 5 else 0)
            + (if t = moveClamped (mkMDP 2 3 [] [(3, 2)] (4 / 5) 0)
                  (orthDirs "up").1 (1, 1) then (1 - 4 / 5) / 2 else 0)
            + (if t = moveClamped (mkMDP 2 3 [] [(3, 2)] (4 / 5) 0)
                  (orthDirs "up").2 (1, 1) then (1 - 4 / 5) / 2 else 0))
      ∧ dsum (get_successor_probs (mkMDP 2 3 [] [(3, 2)] (4 / 5) 0) (1, 1) "up") = 1) :=
  ⟨by decide, by decide,
    claim_C3_transition_law (mkMDP 2 3 [] [(3, 2)] (4 / 5) 0) 2 3 [] [(3, 2)]
      (4 / 5) 0 rfl 1 1 (by norm_num) (by norm_num) (by norm_num) (by norm_num)
      (by decide) "up" (by decide)⟩

/-- C4: on success, `derive_policy` maps every terminal state to the
no-action sentinel `None`, and every non-terminal state to an action whose
expected successor utility is at least that of every action and strictly
above that of every action occurring earlier in the fixed order
up, right, down, left (first action attaining the maximum wins ties). -/
theorem claim_C4_policy_argmax (m : MDP) (num_rows num_cols : ℤ)
    (rewards : Dict ℚ) (terminals : List Cell) (prob_forw reward_default : ℚ)
    (hm : m = mkMDP num_rows num_cols rewards terminals prob_forw reward_default)
    (U : Dict ℚ) (pol : Policy) (hrun : derive_policy m U = some pol) :
    ∀ s ∈ get_states m,
      (is_terminal m s = true → dget pol s = some none)
      ∧ (is_terminal m s = false →
          ∃ a : String, ∃ l1 l2 : List String,
            get_actions m s = l1 ++ a :: l2
            ∧ dget pol s = some (some a)
            ∧ (∀ b ∈ l1, expUtil m U s b < expUtil m U s a)
            ∧ (∀ b ∈ get_actions m s, expUtil m U s b ≤ expUtil m U s a)) := by
  rw [derive_policy] at hrun
  obtain ⟨hmem, hval⟩ := derive_policy_fold m U m.states [] pol hrun
  intro s hs
  have hs2 : s ∈ m.states := hs
  constructor
  · intro hterm
    rw [hval s, if_pos hs2, dpVal, if_pos hterm]
  · intro hterm
    have hbool : ¬(is_terminal m s = true) := by simp [hterm]
    rcases hmem s hs2 with ht | hsome
    · exact absurd ht hbool
    · rcases hb : bestActionFold m U s with _ | r
      · rw [hb] at hsome
        simp at hsome
      · have hr := bestActionFold_some_eq m U s r hb
        have hactne : m.actions ≠ [] := by rw [hm]; simp [mkMDP]
        obtain ⟨a, l1, l2, hdec, hfst, h1, h2⟩ :=
          bestPure_spec m.actions (expUtil m U s) hactne
        refine ⟨a, l1, l2, hdec, ?_, h1, ?_⟩
        · have hdp : dpVal m U s = r.1 := by
            rw [dpVal, if_neg hbool, hb]
          rw [hval s, if_pos hs2, hdp, hr, hfst]
        · intro b hb2
          have hb2m : b ∈ m.actions := hb2
          rw [hdec] at hb2m
          rcases List.mem_append.1 hb2m with hbl | hbr
          · exact le_of_lt (h1 b hbl)
          · rcases List.mem_cons.1 hbr with rfl | hbl2
            · exact le_refl _
            · exact h2 b hbl2

/-- C4 witness: a 1×2 grid with a high-reward terminal on the right; the
derived policy sends the non-terminal state right and marks the terminal with
the sentinel. -/
theorem claim_C4_witness :
    derive_policy (mkMDP 1 2 [] [(2, 1)] (1 / 2) 0) [((1, 1), 0), ((2, 1), 5)]
        = some [((1, 1), some "right"), ((2, 1), none)]
    ∧ ∀ s ∈ get_states (mkMDP 1 2 [] [(2, 1)] (1 / 2) 0),
        (is_terminal (mkMDP 1 2 [] [(2, 1)] (1 / 2) 0) s = true →
          dget [((1, 1), some "right"), ((2, 1), none)] s = some none)
        ∧ (is_terminal (mkMDP 1 2 [] [(2, 1)] (1 / 2) 0) s = false →
            ∃ a : String, ∃ l1 l2 : List String,
              get_actions (mkMDP 1 2 [] [(2, 1)] (1 / 2) 0) s = l1 ++ a :: l2
              ∧ dget [((1, 1), some "right"), ((2, 1), none)] s = some (some a)
              ∧ (∀ b ∈ l1,
                  expUtil (mkMDP 1 2 [] [(2, 1)] (1 / 2) 0)
                      [((1, 1), 0), ((2, 1), 5)] s b
                    < expUtil (mkMDP 1 2 [] [(2, 1)] (1 / 2) 0)
                      [((1, 1), 0), ((2, 1), 5)] s a)
              ∧ (∀ b ∈ get_actions (mkMDP 1 2 [] [(2, 1)] (1 / 2) 0) s,
                  expUtil (mkMDP 1 2 [] [(2, 1)] (1 / 2) 0)
                      [((1, 1), 0), ((2, 1), 5)] s b
                    ≤ expUtil (mkMDP 1 2 [] [(2, 1)] (1 / 2) 0)
                      [((1, 1), 0), ((2, 1), 5)] s a)) := by
  have hpol : derive_policy (mkMDP 1 2 [] [(2, 1)] (1 / 2) 0)
      [((1, 1), 0), ((2, 1), 5)]
      = some [((1, 1), some "right"), ((2, 1), none)] := by
    have hst : (mkMDP 1 2 [] [(2, 1)] (1 / 2) 0).states = [(1, 1), (2, 1)] := by
      decide
    have hterms : (mkMDP 1 2 [] [(2, 1)] (1 / 2) 0).terminals = [(2, 1)] := rfl
    have hacts : (mkMDP 1 2 [] [(2, 1)] (1 / 2) 0).actions
        = ["up", "right", "down", "left"] := rfl
    have hnr : (mkMDP 1 2 [] [(2, 1)] (1 / 2) 0).nrows = 1 := rfl
    have hnc : (mkMDP 1 2 [] [(2, 1)] (1 / 2) 0).ncols = 2 := rfl
    have hpf : (mkMDP 1 2 [] [(2, 1)] (1 / 2) 0).prob_forw = 1 / 2 := rfl
    have hps : (mkMDP 1 2 [] [(2, 1)] (1 / 2) 0).prob_side = 1 / 4 := by
      show (1 - 1 / 2) / 2 = (1 / 4 : ℚ)
      norm_num
    have hrw : (mkMDP 1 2 [] [(2, 1)] (1 / 2) 0).rewards = [] := rfl
    have hrd : (mkMDP 1 2 [] [(2, 1)] (1 / 2) 0).reward_def = 0 := rfl
    norm_num +decide [derive_policy, bestActionFold, utility_prob_sum,
      get_successor_probs, get_reward, get_states, is_terminal, dget, dset,
      dadd, dval, hst, hterms, hacts, hnr, hnc, hpf, hps, hrw, hrd,
      -Prod.mk_one_one, Prod.mk.injEq, String.reduceEq, reduceIte,
      List.foldlM_cons, List.foldlM_nil, List.foldl_cons, List.foldl_nil]
  exact ⟨hpol,
    claim_C4_policy_argmax (mkMDP 1 2 [] [(2, 1)] (1 / 2) 0) 1 2 [] [(2, 1)]
      (1 / 2) 0 rfl [((1, 1), 0), ((2, 1), 5)]
      [((1, 1), some "right"), ((2, 1), none)] hpol⟩

/-- C5: a successful run of `value_iteration` is exactly: iterate the pure
synchronous sweep `Fiter` (each snapshot computed wholly from the previous
one) starting from the immediate-reward dictionary, stop at the first sweep
whose largest absolute per-state change is `≤ epsilon`, and return that
sweep's full snapshot. -/
theorem claim_C5_synchronous_stop (m : MDP) (num_rows num_cols : ℤ)
    (rewards : Dict ℚ) (terminals : List Cell) (prob_forw reward_default : ℚ)
    (hm : m = mkMDP num_rows num_cols rewards terminals prob_forw reward_default)
    (gamma eps : ℚ) (fuel : ℕ) (U : Dict ℚ)
    (hrun : value_iteration m gamma eps fuel = some U) :
    ∃ n : ℕ,
      (∀ j < n, eps < sweepGap m gamma ((viMinReward m).getD 0) j)
      ∧ sweepGap m gamma ((viMinReward m).getD 0) n ≤ eps
      ∧ ∀ s ∈ get_states m,
          dget U s = some (Fiter m gamma ((viMinReward m).getD 0) (n + 1) s) := by
  have hK : KeysClosed m := by
    rw [hm]
    exact keysClosed_mkMDP num_rows num_cols rewards terminals prob_forw reward_default
  unfold value_iteration at hrun
  obtain ⟨n, hn, hlt, hle, hsnap⟩ := viLoop_some_spec m hK gamma eps
    ((viMinReward m).getD 0) fuel (viInit m) U 0
    (snapshot_viInit m gamma ((viMinReward m).getD 0)) hrun
  refine ⟨n, ?_, ?_, ?_⟩
  · intro j hj
    simpa using hlt j hj
  · simpa using hle
  · intro s hs
    have hs2 : s ∈ m.states := hs
    rw [hsnap s, if_pos hs2]
    have h0 : 0 + n + 1 = n + 1 := by omega
    rw [h0]

/-- C5 witness: a 1×1 non-terminal grid where the first sweep already changes
nothing, so the loop stops after one sweep with the reward snapshot. -/
theorem claim_C5_witness :
    value_iteration (mkMDP 1 1 [] [] (1 / 2) 0) (1 / 2) 1 1 = some [((1, 1), 0)]
    ∧ ∃ n : ℕ,
        (∀ j < n, 1 < sweepGap (mkMDP 1 1 [] [] (1 / 2) 0) (1 / 2)
          ((viMinReward (mkMDP 1 1 [] [] (1 / 2) 0)).getD 0) j)
        ∧ sweepGap (mkMDP 1 1 [] [] (1 / 2) 0) (1 / 2)
            ((viMinReward (mkMDP 1 1 [] [] (1 / 2) 0)).getD 0) n ≤ 1
        ∧ ∀ s ∈ get_states (mkMDP 1 1 [] [] (1 / 2) 0),
            dget [((1, 1), 0)] s
              = some (Fiter (mkMDP 1 1 [] [] (1 / 2) 0) (1 / 2)
                  ((viMinReward (mkMDP 1 1 [] [] (1 / 2) 0)).getD 0) (n + 1) s) := by
  have hrun : value_iteration (mkMDP 1 1 [] [] (1 / 2) 0) (1 / 2) 1 1
      = some [((1, 1), 0)] := by
    norm_num [value_iteration, viLoop, viSweep, viSweepStep, viInit, viMinReward,
      utility_prob_sum, get_successor_probs, get_reward, get_states, is_terminal,
      dget, dset, dadd, dval, mkMDP, intRange, List.foldlM_cons,
      List.foldlM_nil, List.foldl_cons, List.foldl_nil, List.range_succ]
  exact ⟨hrun,
    claim_C5_synchronous_stop (mkMDP 1 1 [] [] (1 / 2) 0) 1 1 [] [] (1 / 2) 0 rfl
      (1 / 2) 1 1 [((1, 1), 0)] hrun⟩

/-- C6: for every constructor-built model with a non-empty grid and
`prob_forw ∈ [0,1]`, every discount in `[0,1)` and every `epsilon > 0`,
`value_iteration` terminates (some finite fuel suffices) and the returned
utility dictionary has an entry for every state of `get_states` — a complete
map, never partial. -/
theorem claim_C6_termination_complete (m : MDP) (num_rows num_cols : ℤ)
    (rewards : Dict ℚ) (terminals : List Cell) (prob_forw reward_default : ℚ)
    (hm : m = mkMDP num_rows num_cols rewards terminals prob_forw reward_default)
    (hr : 1 ≤ num_rows) (hc : 1 ≤ num_cols)
    (hpf0 : 0 ≤ prob_forw) (hpf1 : prob_forw ≤ 1)
    (gamma eps : ℚ) (hg0 : 0 ≤ gamma) (hg1 : gamma < 1) (heps : 0 < eps) :
    get_states m ≠ []
    ∧ ∃ fuel : ℕ, ∃ U : Dict ℚ, value_iteration m gamma eps fuel = some U
        ∧ ∀ s ∈ get_states m, (dget U s).isSome := by
  have hK : KeysClosed m := by
    rw [hm]
    exact keysClosed_mkMDP num_rows num_cols rewards terminals prob_forw reward_default
  have hpf0m : 0 ≤ m.prob_forw := by rw [hm]; exact hpf0
  have hpf1m : m.prob_forw ≤ 1 := by rw [hm]; exact hpf1
  have hside : m.prob_side = (1 - m.prob_forw) / 2 := by rw [hm]; rfl
  obtain ⟨fuel, R, hloop, hcomp⟩ := vi_terminates_general m hK hpf0m hpf1m hside
    gamma eps ((viMinReward m).getD 0) hg0 hg1 heps
  constructor
  · have hmem : ((1, 1) : Cell) ∈ m.states := by
      rw [hm, mem_states_mkMDP]
      refine ⟨le_refl 1, hc, le_refl 1, hr⟩
    exact List.ne_nil_of_mem hmem
  · exact ⟨fuel, R, hloop, hcomp⟩

/-- C6 witness: termination and completeness on a concrete 1×1 grid. -/
theorem claim_C6_witness :
    get_states (mkMDP 1 1 [] [] (1 / 2) 0) ≠ []
    ∧ ∃ fuel : ℕ, ∃ U : Dict ℚ,
        value_iteration (mkMDP 1 1 [] [] (1 / 2) 0) (1 / 2) 1 fuel = some U
        ∧ ∀ s ∈ get_states (mkMDP 1 1 [] [] (1 / 2) 0), (dget U s).isSome :=
  claim_C6_termination_complete (mkMDP 1 1 [] [] (1 / 2) 0) 1 1 [] [] (1 / 2) 0 rfl
    (by norm_num) (by norm_num) (by norm_num) (by norm_num)
    (1 / 2) 1 (by norm_num) (by norm_num) (by norm_num)

/-- C7: if `value_iteration` returns `U` (discount in `[0,1)`, `epsilon > 0`,
valid forward probability), then one additional synchronous sweep applied to
`U` has convergence value `≤ epsilon` and changes no state's value by more
than `epsilon`. -/
theorem claim_C7_post_convergence (m : MDP) (num_rows num_cols : ℤ)
    (rewards : Dict ℚ) (terminals : List Cell) (prob_forw reward_default : ℚ)
    (hm : m = mkMDP num_rows num_cols rewards terminals prob_forw reward_default)
    (hpf0 : 0 ≤ prob_forw) (hpf1 : prob_forw ≤ 1)
    (gamma eps : ℚ) (hg0 : 0 ≤ gamma) (hg1 : gamma < 1) (heps : 0 < eps)
    (fuel : ℕ) (U : Dict ℚ) (hrun : value_iteration m gamma eps fuel = some U)
    (d : Dict ℚ) (conv : ℚ)
    (hsweep : viSweep m gamma ((viMinReward m).getD 0) U = some (d, conv)) :
    conv ≤ eps ∧ ∀ s ∈ get_states m, |dval d s - dval U s| ≤ eps := by
  have hK : KeysClosed m := by
    rw [hm]
    exact keysClosed_mkMDP num_rows num_cols rewards terminals prob_forw reward_default
  have hpf0m : 0 ≤ m.prob_forw := by rw [hm]; exact hpf0
  have hpf1m : m.prob_forw ≤ 1 := by rw [hm]; exact hpf1
  have hside : m.prob_side = (1 - m.prob_forw) / 2 := by rw [hm]; rfl
  unfold value_iteration at hrun
  obtain ⟨n, hn, hlt, hle, hsnapU⟩ := viLoop_some_spec m hK gamma eps
    ((viMinReward m).getD 0) fuel (viInit m) U 0
    (snapshot_viInit m gamma ((viMinReward m).getD 0)) hrun
  obtain ⟨d2, hsweep2, hd2⟩ := snapshot_viSweep m hK gamma
    ((viMinReward m).getD 0) (0 + n + 1) U hsnapU
  rw [hsweep] at hsweep2
  injection hsweep2 with hpair
  obtain ⟨hdq, hconv⟩ := Prod.mk.injEq .. ▸ hpair
  have hgap1 : sweepGap m gamma ((viMinReward m).getD 0) (0 + n + 1)
      ≤ gamma * sweepGap m gamma ((viMinReward m).getD 0) (0 + n) :=
    sweepGap_decay m hK hpf0m hpf1m hside gamma ((viMinReward m).getD 0) hg0 (0 + n)
  have hgap2 : sweepGap m gamma ((viMinReward m).getD 0) (0 + n + 1) ≤ eps := by
    refine le_trans hgap1 (le_trans (mul_le_mul_of_nonneg_left hle hg0) ?_)
    exact mul_le_of_le_one_left (le_of_lt heps) (le_of_lt hg1)
  constructor
  · rw [← hconv] at hgap2
    exact hgap2
  · intro s hs
    have hs2 : s ∈ m.states := hs
    have hds : dval d s
        = Fiter m gamma ((viMinReward m).getD 0) (0 + n + 1 + 1) s := by
      rw [← hdq] at hd2
      rw [dval, hd2 s, if_pos hs2]
      rfl
    have hUs : dval U s = Fiter m gamma ((viMinReward m).getD 0) (0 + n + 1) s := by
      rw [dval, hsnapU s, if_pos hs2]
      rfl
    rw [hds, hUs, abs_sub_comm]
    exact le_trans (abs_le_maxAbsDiff m.states _ _ s hs2) hgap2

/-- C7 witness: the already-converged 1×1 grid where a further sweep changes
nothing. -/
theorem claim_C7_witness :
    value_iteration (mkMDP 1 1 [] [] (1 / 2) 0) (1 / 2) 1 1 = some [((1, 1), 0)]
    ∧ viSweep (mkMDP 1 1 [] [] (1 / 2) 0) (1 / 2)
        ((viMinReward (mkMDP 1 1 [] [] (1 / 2) 0)).getD 0) [((1, 1), 0)]
        = some ([((1, 1), 0)], 0)
    ∧ ((0 : ℚ) ≤ 1 ∧ ∀ s ∈ get_states (mkMDP 1 1 [] [] (1 / 2) 0),
        |dval [((1, 1), 0)] s - dval [((1, 1), 0)] s| ≤ 1) := by
  have hrun : value_iteration (mkMDP 1 1 [] [] (1 / 2) 0) (1 / 2) 1 1
      = some [((1, 1), 0)] := by
    norm_num [value_iteration, viLoop, viSweep, viSweepStep, viInit, viMinReward,
      utility_prob_sum, get_successor_probs, get_reward, get_states, is_terminal,
      dget, dset, dadd, dval, mkMDP, intRange, List.foldlM_cons,
      List.foldlM_nil, List.foldl_cons, List.foldl_nil, List.range_succ]
  have hsweep : viSweep (mkMDP 1 1 [] [] (1 / 2) 0) (1 / 2)
      ((viMinReward (mkMDP 1 1 [] [] (1 / 2) 0)).getD 0) [((1, 1), 0)]
      = some ([((1, 1), 0)], 0) := by
    norm_num [viSweep, viSweepStep, viMinReward, utility_prob_sum,
      get_successor_probs, get_reward, get_states, is_terminal, dget, dset,
      dadd, dval, mkMDP, intRange, List.foldlM_cons, List.foldlM_nil,
      List.foldl_cons, List.foldl_nil, List.range_succ]
  exact ⟨hrun, hsweep,
    claim_C7_post_convergence (mkMDP 1 1 [] [] (1 / 2) 0) 1 1 [] [] (1 / 2) 0 rfl
      (by norm_num) (by norm_num) (1 / 2) 1 (by norm_num) (by norm_num)
      (by norm_num) 1 [((1, 1), 0)] hrun [((1, 1), 0)] 0 hsweep⟩

/-- C8: if the utility dictionary passed to `derive_policy` lacks an entry for
a successor state reachable from a non-terminal state, `derive_policy` fails
with the missing-key error (`none`) rather than returning a policy. -/
theorem claim_C8_missing_key_fails (m : MDP) (s : Cell) (hs : s ∈ get_states m)
    (hterm : is_terminal m s = false) (a : String) (ha : a ∈ get_actions m s)
    (t : Cell) (ht : t ∈ dkeys (get_successor_probs m s a)) (U : Dict ℚ)
    (hmiss : dget U t = none) :
    derive_policy m U = none := by
  have hups : utility_prob_sum (get_successor_probs m s a) U = none :=
    utility_prob_sum_none _ U t ht hmiss
  have hbf : bestActionFold m U s = none := by
    rw [bestActionFold]
    exact foldlM_none_of_mem m.actions _ a ha
      (fun best => by rw [hups]; rfl) _
  rw [derive_policy]
  refine foldlM_none_of_mem m.states _ s hs ?_ []
  intro acc
  rw [if_neg (by simp [hterm] : ¬(is_terminal m s = true)), hbf]
  rfl

/-- C8 witness: an empty utility dictionary makes `derive_policy` fail on a
1×1 grid whose single state is non-terminal. -/
theorem claim_C8_witness :
    dget ([] : Dict ℚ) (1, 1) = none
    ∧ derive_policy (mkMDP 1 1 [] [] (1 / 2) 0) [] = none :=
  ⟨rfl,
    claim_C8_missing_key_fails (mkMDP 1 1 [] [] (1 / 2) 0) (1, 1) (by decide)
      (by decide) "up" (by decide) (1, 1) (by decide) [] rfl⟩

/-- C9: every key of a successor dictionary of an in-bounds state is itself a
member of `get_states`; consequently the utility snapshots of
`value_iteration` (the initial dictionary and every sweep output) cover all
states and every sweep's probability-weighted sums succeed — no missing-key
failure is possible. -/
theorem claim_C9_no_missing_key (m : MDP) (num_rows num_cols : ℤ)
    (rewards : Dict ℚ) (terminals : List Cell) (prob_forw reward_default : ℚ)
    (hm : m = mkMDP num_rows num_cols rewards terminals prob_forw reward_default)
    (x y : ℤ) (hx1 : 1 ≤ x) (hx2 : x ≤ num_cols) (hy1 : 1 ≤ y) (hy2 : y ≤ num_rows) :
    (∀ a : String, ∀ t ∈ dkeys (get_successor_probs m (x, y) a), t ∈ get_states m)
    ∧ ∀ gamma mr : ℚ, ∀ U : Dict ℚ,
        (∀ s ∈ get_states m, (dget U s).isSome) →
        (∀ s ∈ get_states m, (dget (viInit m) s).isSome)
        ∧ (viSweep m gamma mr U).isSome
        ∧ ∀ d : Dict ℚ, ∀ conv : ℚ, viSweep m gamma mr U = some (d, conv) →
            ∀ s ∈ get_states m, (dget d s).isSome := by
  subst hm
  have hxy : (x, y)
      ∈ (mkMDP num_rows num_cols rewards terminals prob_forw reward_default).states := by
    rw [mem_states_mkMDP]
    exact ⟨hx1, hx2, hy1, hy2⟩
  have hK := keysClosed_mkMDP num_rows num_cols rewards terminals prob_forw reward_default
  constructor
  · intro a t ht
    exact gsp_keys_mem_states num_rows num_cols rewards terminals prob_forw
      reward_default (x, y) hxy a t ht
  · intro gamma mr U hU
    obtain ⟨d0, hsweep0, hd0⟩ := viSweep_eq _ gamma mr U hU
      (fun s hss a _ t ht => hU t (hK s hss a t ht))
    refine ⟨?_, ?_, ?_⟩
    · intro s hss
      have hs2 : s
          ∈ (mkMDP num_rows num_cols rewards terminals prob_forw reward_default).states :=
        hss
      rw [dget_viInit, if_pos hs2]
      rfl
    · rw [hsweep0]
      rfl
    · intro d conv hdc s hss
      have hs2 : s
          ∈ (mkMDP num_rows num_cols rewards terminals prob_forw reward_default).states :=
        hss
      rw [hsweep0] at hdc
      injection hdc with hpair
      obtain ⟨hdq, _⟩ := Prod.mk.injEq .. ▸ hpair
      rw [← hdq, hd0 s, if_pos hs2]
      rfl

/-- C9 witness: closure and sweep success evaluated on the 2×3 test grid at
state (1, 1) with a complete utility dictionary. -/
theorem claim_C9_witness :
    (∀ a : String,
      ∀ t ∈ dkeys (get_successor_probs (mkMDP 2 3 [] [(3, 2)] (4 / 5) 0) (1, 1) a),
        t ∈ get_states (mkMDP 2 3 [] [(3, 2)] (4 / 5) 0))
    ∧ ∀ gamma mr : ℚ, ∀ U : Dict ℚ,
        (∀ s ∈ get_states (mkMDP 2 3 [] [(3, 2)] (4 / 5) 0), (dget U s).isSome) →
        (∀ s ∈ get_states (mkMDP 2 3 [] [(3, 2)] (4 / 5) 0),
          (dget (viInit (mkMDP 2 3 [] [(3, 2)] (4 / 5) 0)) s).isSome)
        ∧ (viSweep (mkMDP 2 3 [] [(3, 2)] (4 / 5) 0) gamma mr U).isSome
        ∧ ∀ d : Dict ℚ, ∀ conv : ℚ,
            viSweep (mkMDP 2 3 [] [(3, 2)] (4 / 5) 0) gamma mr U = some (d, conv) →
            ∀ s ∈ get_states (mkMDP 2 3 [] [(3, 2)] (4 / 5) 0), (dget d s).isSome :=
  claim_C9_no_missing_key (mkMDP 2 3 [] [(3, 2)] (4 / 5) 0) 2 3 [] [(3, 2)]
    (4 / 5) 0 rfl 1 1 (by norm_num) (by norm_num) (by norm_num) (by norm_num)

/-- C10: calling `get_successor_probs` on a non-terminal state with an action
string other than the four recognised ones returns the empty mapping rather
than raising, and the expected-utility sum over that empty mapping is 0, not
a failure. -/
theorem claim_C10_unknown_action (m : MDP) (s : Cell)
    (hterm : is_terminal m s = false) (a : String)
    (h1 : a ≠ "up") (h2 : a ≠ "right") (h3 : a ≠ "down") (h4 : a ≠ "left")
    (U : Dict ℚ) :
    get_successor_probs m s a = []
    ∧ utility_prob_sum (get_successor_probs m s a) U = some 0 := by
  have hgsp : get_successor_probs m s a = [] := by
    simp [get_successor_probs, hterm, h1, h2, h3, h4]
  exact ⟨hgsp, by rw [hgsp]; rfl⟩

/-- C10 witness: the unrecognised action string `"jump"` on a non-terminal
state yields the empty successor mapping and expected utility 0. -/
theorem claim_C10_witness :
    get_successor_probs (mkMDP 1 1 [] [] (1 / 2) 0) (1, 1) "jump" = []
    ∧ utility_prob_sum
        (get_successor_probs (mkMDP 1 1 [] [] (1 / 2) 0) (1, 1) "jump") [] = some 0 :=
  claim_C10_unknown_action (mkMDP 1 1 [] [] (1 / 2) 0) (1, 1) (by decide) "jump"
    (by decide) (by decide) (by decide) (by decide) []

end GridWorldMDP
